import Mathlib

/-!
# Dynamic single-source shortest paths (`Codes/Openmp.cpp`)

A shallow embedding of `initialDijkstra` and `updateDijkstra` from
`Codes/Openmp.cpp` (the `dijkstra` routine of `Codes/dijkstra_metis.cpp` is
`initialDijkstra` without the `parent` array).

Modelling conventions.

* Vertex ids are natural numbers; the C++ `int` values held in `dist`, `parent`
  and the edge weights are integers, and `+` on them is 32-bit two's-complement
  addition (`addInt`).
* The global vectors `dist`, `parent`, `affected` form a `State`.
* A `vector` subscript is a total list access.  Every theorem that depends on a
  subscript being in range carries the corresponding hypothesis.  The one
  subscript taken straight from a caller-supplied argument before any loop,
  `dist[source]` in `initialDijkstra`, is checked explicitly and reported as
  `Run.outOfRange`.
* Loops that the C++ runs until a condition holds take a `fuel` argument and
  answer `Run.outOfFuel` when it is used up.
* The `parallel for` of `updateDijkstra` is modelled as a sequential sweep over a
  visiting order; `updateDijkstra` itself sweeps `0, 1, ..., n-1`.
-/

namespace DynSSSP

/-- The constant `INF = numeric_limits<int>::max()`. -/
def INF : Int := 2147483647

/-- Addition of two `int`s, wrapping modulo `2^32` into `[-2^31, 2^31)`. -/
def addInt (a b : Int) : Int := (a + b + 2147483648) % 4294967296 - 2147483648

/-- Adjacency list `vector<vector<pii>>`: vertex to list of `(neighbor, weight)`. -/
abbrev Graph := List (List (Nat × Int))

/-- The global vectors `dist`, `parent` and `affected`. -/
structure State where
  dist : List Int
  parent : List Int
  affected : List Bool
deriving DecidableEq, Repr

/-- Outcome of a routine: it returns (`done`), it reaches a subscript that is out
of range, where C++ leaves the behaviour undefined (`outOfRange`, carrying the
global vectors as they are at that moment), or the fuel of the model is used up
(`outOfFuel`). -/
inductive Run (α : Type) where
  | done (a : α)
  | outOfRange (st : State)
  | outOfFuel
deriving DecidableEq, Repr

/-- The list `G[u]`. -/
def adj (G : Graph) (u : Nat) : List (Nat × Int) := G.getD u []

/-- The value `dist[v]`. -/
def State.d (st : State) (v : Nat) : Int := st.dist.getD v 0

/-- The value `parent[v]`. -/
def State.p (st : State) (v : Nat) : Int := st.parent.getD v 0

/-- The value `affected[v]`. -/
def State.a (st : State) (v : Nat) : Bool := st.affected.getD v false

/-- Contents of the `priority_queue<pii, vector<pii>, greater<>>`: pairs
`(distance, vertex)`. -/
abbrev PQ := List (Int × Nat)

/-- The order `operator<=` on `pair<int,int>` (lexicographic). -/
def pairLe (x y : Int × Nat) : Bool :=
  decide (x.1 < y.1) || (decide (x.1 = y.1) && decide (x.2 ≤ y.2))

/-- The element `pq.top()`: the least pair of the queue. -/
def pqTop : PQ → Option (Int × Nat)
  | [] => none
  | x :: xs =>
    match pqTop xs with
    | none => some x
    | some y => if pairLe x y then some x else some y

/-- One iteration of `for (auto [v, w] : G[u])` in `initialDijkstra`. -/
def relaxEdge (u : Nat) (acc : State × PQ) (e : Nat × Int) : State × PQ :=
  let st := acc.1
  let nd := addInt (st.d u) e.2
  if st.d e.1 > nd then
    ({ st with dist := st.dist.set e.1 nd, parent := st.parent.set e.1 (u : Int) },
      (nd, e.1) :: acc.2)
  else acc

/-- The loop `while (!pq.empty())` of `initialDijkstra`. -/
def dijkstraLoop : Nat → Graph → State → PQ → Option State
  | 0, _, _, _ => none
  | fuel + 1, G, st, pq =>
    match pqTop pq with
    | none => some st
    | some (d, u) =>
      if d > st.d u then dijkstraLoop fuel G st (pq.erase (d, u))
      else
        let r := (adj G u).foldl (relaxEdge u) (st, pq.erase (d, u))
        dijkstraLoop fuel G r.1 r.2

/-- The two `assign` calls that open `initialDijkstra`. -/
def resetState (G : Graph) (st : State) : State :=
  { st with dist := List.replicate G.length INF, parent := List.replicate G.length (-1) }

/-- The routine `initialDijkstra(G, source)`.  The source text has no test on
`source`; the branch below marks the point where the subscript `dist[source]` is
evaluated, which is defined only for `source < G.size()`. -/
def initialDijkstra (fuel : Nat) (G : Graph) (source : Nat) (st : State) : Run State :=
  let st1 := resetState G st
  if source < G.length then
    match dijkstraLoop fuel G { st1 with dist := st1.dist.set source 0 } [((0 : Int), source)] with
    | some st2 => Run.done st2
    | none => Run.outOfFuel
  else Run.outOfRange st1

/-- The erase/`remove_if` idiom `G[u].erase(remove_if(..., e.first == v), G[u].end())`. -/
def removeNbr (l : List (Nat × Int)) (v : Nat) : List (Nat × Int) :=
  l.filter (fun e => !(e.1 == v))

/-- One iteration of the deletion loop of `updateDijkstra`. -/
def deleteEdge (acc : Graph × State) (e : Nat × Nat) : Graph × State :=
  let u := e.1
  let v := e.2
  let G1 := acc.1.set u (removeNbr (adj acc.1 u) v)
  let G2 := G1.set v (removeNbr (adj G1 v) u)
  let st := acc.2
  if (st.p v = (u : Int) ∧ st.d v ≠ INF) ∨ (st.p u = (v : Int) ∧ st.d u ≠ INF) then
    let x := if st.d u > st.d v then u else v
    (G2, { dist := st.dist.set x INF, parent := st.parent.set x (-1),
           affected := st.affected.set x true })
  else (G2, st)

/-- One iteration of the insertion loop of `updateDijkstra`. -/
def insertEdge (acc : Graph × State) (e : Nat × Nat) : Graph × State :=
  let u := e.1
  let v := e.2
  let G1 := acc.1.set u (adj acc.1 u ++ [(v, (1 : Int))])
  let G2 := G1.set v (adj G1 v ++ [(u, (1 : Int))])
  let st := acc.2
  let st1 :=
    if addInt (st.d u) 1 < st.d v then
      { dist := st.dist.set v (addInt (st.d u) 1), parent := st.parent.set v (u : Int),
        affected := st.affected.set v true }
    else st
  let st2 :=
    if addInt (st1.d v) 1 < st1.d u then
      { dist := st1.dist.set u (addInt (st1.d v) 1), parent := st1.parent.set u (v : Int),
        affected := st1.affected.set u true }
    else st1
  (G2, st2)

/-- One iteration of `for (auto [v, w] : G[u])` in the relaxation loop, with the
check outside and the re-check inside the critical section. -/
def pullEdge (u : Nat) (acc : State × Bool) (e : Nat × Int) : State × Bool :=
  let st := acc.1
  if st.d u > addInt (st.d e.1) e.2 then
    if st.d u > addInt (st.d e.1) e.2 then
      ({ dist := st.dist.set u (addInt (st.d e.1) e.2), parent := st.parent.set u (e.1 : Int),
         affected := st.affected.set u true }, true)
    else acc
  else acc

/-- The body of `for (int u = 0; u < n; ++u)` in the relaxation loop. -/
def relaxVertex (G : Graph) (acc : State × Bool) (u : Nat) : State × Bool :=
  if acc.1.a u then
    (adj G u).foldl (pullEdge u) ({ acc.1 with affected := acc.1.affected.set u false }, acc.2)
  else acc

/-- One round of the `while (changed)` loop: `changed = false`, then the sweep
over the vertex ids in the given visiting order. -/
def relaxRound (G : Graph) (order : List Nat) (st : State) : State × Bool :=
  order.foldl (relaxVertex G) (st, false)

/-- The `while (changed)` loop, one visiting order per round; the list of
visiting orders is the fuel. -/
def relaxLoopSched : List (List Nat) → Graph → State → Option State
  | [], _, _ => none
  | order :: rest, G, st =>
    let r := relaxRound G order st
    if r.2 then relaxLoopSched rest G r.1 else some r.1

/-- The deletion and insertion loops of `updateDijkstra`, from
`affected.assign(n, false)` up to the relaxation loop. -/
def applyChanges (G : Graph) (delEdges insEdges : List (Nat × Nat)) (st : State) :
    Graph × State :=
  let st0 := { st with affected := List.replicate G.length false }
  insEdges.foldl insertEdge (delEdges.foldl deleteEdge (G, st0))

/-- The routine `updateDijkstra(G, delEdges, insEdges, numThreads)` with the
relaxation rounds swept in the given visiting orders. -/
def updateDijkstraSched (sched : List (List Nat)) (G : Graph)
    (delEdges insEdges : List (Nat × Nat)) (st : State) : Run (Graph × State) :=
  let r := applyChanges G delEdges insEdges st
  match relaxLoopSched sched r.1 r.2 with
  | some st2 => Run.done (r.1, st2)
  | none => Run.outOfFuel

/-- The routine `updateDijkstra(G, delEdges, insEdges, numThreads)` run on one
thread. -/
def updateDijkstra (fuel : Nat) (G : Graph) (delEdges insEdges : List (Nat × Nat))
    (st : State) : Run (Graph × State) :=
  updateDijkstraSched (List.replicate fuel (List.range G.length)) G delEdges insEdges st

/-! ## Specification vocabulary -/

/-- Every neighbour id stored in the graph is a vertex of the graph. -/
def WellFormed (G : Graph) : Prop :=
  ∀ u, ∀ e ∈ adj G u, e.1 < G.length

/-- Every stored weight is positive. -/
def PositiveWeights (G : Graph) : Prop :=
  ∀ u, ∀ e ∈ adj G u, 0 < e.2

/-- The three global vectors all have `n` entries. -/
def State.Sized (st : State) (n : Nat) : Prop :=
  st.dist.length = n ∧ st.parent.length = n ∧ st.affected.length = n

/-- `Path G s v c`: the graph holds a path from `s` to `v` of total weight `c`. -/
inductive Path (G : Graph) (s : Nat) : Nat → Int → Prop where
  | nil : Path G s s 0
  | snoc {u v : Nat} {c w : Int} : Path G s u c → (v, w) ∈ adj G u → Path G s v (c + w)

/-- `v` can be reached from `s`. -/
def Reachable (G : Graph) (s v : Nat) : Prop := ∃ c, Path G s v c

/-- `c` is the minimum total weight over all paths from `s` to `v`. -/
def IsDist (G : Graph) (s v : Nat) (c : Int) : Prop :=
  Path G s v c ∧ ∀ c', Path G s v c' → c ≤ c'

/-- No sum `dist[u] + w` formed from a shortest distance and an edge leaving
that vertex exceeds `INT_MAX`. -/
def PathsFit (G : Graph) (s : Nat) : Prop :=
  ∀ u c, IsDist G s u c → ∀ e ∈ adj G u, c + e.2 ≤ INF

/-- Every sum `dist[u] + w` formed from a shortest distance and an edge leaving
that vertex stays below the sentinel `INF`. -/
def PathsBelowINF (G : Graph) (s : Nat) : Prop :=
  ∀ u c, IsDist G s u c → ∀ e ∈ adj G u, c + e.2 < INF

/-- Progress measure of the loops: the sum over all vertices of
`dist[v] - INT_MIN`. -/
def distMeasure (l : List Int) : Nat :=
  (l.map (fun x => (x + 2147483648).toNat)).sum

/-- Every recorded parent is the tail of a stored edge into the vertex. -/
def ParentEdges (G : Graph) (st : State) : Prop :=
  ∀ v, v < G.length → st.p v = -1 ∨ ∃ (u : Nat) (w : Int), st.p v = (u : Int) ∧ (v, w) ∈ adj G u

/-- Every edge leaving `a` satisfies `dist[v] <= dist[a] + w`. -/
def Relaxed (G : Graph) (st : State) (a : Nat) : Prop :=
  ∀ e ∈ adj G a, st.d e.1 ≤ st.d a + e.2

/-- The part of the loop invariant of `initialDijkstra` that holds at every
point of the run. -/
structure Core (G : Graph) (s : Nat) (st : State) (pq : PQ) : Prop where
  sizeD : st.dist.length = G.length
  sizeP : st.parent.length = G.length
  leInf : ∀ v, v < G.length → st.d v ≤ INF
  srcD : st.d s = 0
  srcP : st.p s = -1
  sound : ∀ v, v < G.length → st.d v < INF → Path G s v (st.d v)
  queue : ∀ e ∈ pq, e.2 < G.length ∧ st.d e.2 ≤ e.1 ∧ e.1 < INF
  tree : ∀ v, v < G.length → v ≠ s →
    (st.d v = INF ∧ st.p v = -1) ∨
    (st.d v < INF ∧ ∃ (u : Nat) (w : Int), u < G.length ∧ st.p v = (u : Int)
      ∧ (v, w) ∈ adj G u ∧ st.d v = st.d u + w ∧ IsDist G s u (st.d u))

/-- Invariant at the head of the `while (!pq.empty())` loop: every vertex with a
finite distance either still has its current entry in the queue or has all its
edges relaxed. -/
def DInv (G : Graph) (s : Nat) (st : State) (pq : PQ) : Prop :=
  Core G s st pq ∧
    ∀ a, a < G.length → st.d a < INF → (st.d a, a) ∈ pq ∨ Relaxed G st a

/-- Invariant inside the `for (auto [v, w] : G[u])` loop of the popped vertex `u`,
after the edges `done` have been handled. -/
def RInv (G : Graph) (s u : Nat) (done : List (Nat × Int)) (acc : State × PQ) : Prop :=
  Core G s acc.1 acc.2 ∧ IsDist G s u (acc.1.d u) ∧
    (∀ a, a < G.length → a ≠ u → acc.1.d a < INF →
      (acc.1.d a, a) ∈ acc.2 ∨ Relaxed G acc.1 a) ∧
    ∀ e ∈ done, acc.1.d e.1 ≤ acc.1.d u + e.2

/-! ## Example inputs -/

/-- The state before `initialDijkstra` has run: three empty vectors. -/
def emptyState : State := ⟨[], [], []⟩

/-- Edges 0-1 (weight 1), 1-2 (weight 1), 0-2 (weight 5). -/
def triangle : Graph := [[(1, 1), (2, 5)], [(0, 1), (2, 1)], [(1, 1), (0, 5)]]

/-- The path 0-1-2 with unit weights. -/
def path3 : Graph := [[(1, 1)], [(0, 1), (2, 1)], [(1, 1)]]

/-- The path 0-1-2-3 with unit weights. -/
def path4 : Graph := [[(1, 1)], [(0, 1), (2, 1)], [(1, 1), (3, 1)], [(2, 1)]]

/-- The path 0-1-...-7 with unit weights. -/
def path8 : Graph :=
  [[(1, 1)], [(0, 1), (2, 1)], [(1, 1), (3, 1)], [(2, 1), (4, 1)], [(3, 1), (5, 1)],
   [(4, 1), (6, 1)], [(5, 1), (7, 1)], [(6, 1)]]

/-- Vertices 0 and 1 joined by two parallel unit edges, and an edge 0-2 of weight 7. -/
def parallelGraph : Graph := [[(1, 1), (2, 7), (1, 1)], [(0, 1), (0, 1)], [(0, 7)]]

/-- One edge from vertex 0 to vertex 1 whose weight is `INT_MAX`. -/
def sentinelEdge : Graph := [[(1, 2147483647)], []]

/-- The triangle 0-1, 1-2, 0-2 with unit weights. -/
def triangleUnit : Graph := [[(1, 1), (2, 1)], [(0, 1), (2, 1)], [(0, 1), (1, 1)]]

/-- The edge 0-1 with unit weight and an isolated vertex 2. -/
def edgeAndIsolated : Graph := [[(1, 1)], [(0, 1)], []]

/-! ## Subscripts -/

theorem getD_set_eq {α : Type} (l : List α) (i j : Nat) (x d : α) :
    (l.set i x).getD j d = if i = j ∧ i < l.length then x else l.getD j d := by
  simp only [List.getD_eq_getElem?_getD, List.getElem?_set]
  by_cases h : i = j
  · subst h
    by_cases h2 : i < l.length
    · simp [h2]
    · simp [h2, List.getElem?_eq_none (not_lt.mp h2)]
  · simp [h]

theorem d_set (st : State) (x j : Nat) (y : Int) (l2 : List Int) (l3 : List Bool) :
    State.d ⟨st.dist.set x y, l2, l3⟩ j = if x = j ∧ x < st.dist.length then y else st.d j := by
  unfold State.d; exact getD_set_eq _ _ _ _ _

theorem p_set (st : State) (x j : Nat) (y : Int) (l1 : List Int) (l3 : List Bool) :
    State.p ⟨l1, st.parent.set x y, l3⟩ j
      = if x = j ∧ x < st.parent.length then y else st.p j := by
  unfold State.p; exact getD_set_eq _ _ _ _ _

theorem a_set (st : State) (x j : Nat) (y : Bool) (l1 l2 : List Int) :
    State.a ⟨l1, l2, st.affected.set x y⟩ j
      = if x = j ∧ x < st.affected.length then y else st.a j := by
  unfold State.a; exact getD_set_eq _ _ _ _ _

theorem adj_set (G : Graph) (i j : Nat) (x : List (Nat × Int)) :
    adj (G.set i x) j = if i = j ∧ i < G.length then x else adj G j := by
  unfold adj; exact getD_set_eq G i j x []

theorem adj_of_le (G : Graph) (u : Nat) (h : G.length ≤ u) : adj G u = [] := by
  simp [adj, List.getD_eq_getElem?_getD, List.getElem?_eq_none h]

theorem set_adj_self (G : Graph) (i : Nat) : G.set i (adj G i) = G := by
  apply List.ext_getElem?
  intro j
  rw [List.getElem?_set]
  by_cases h : i = j
  · subst h
    by_cases h2 : i < G.length
    · simp [h2, adj, List.getD_eq_getElem?_getD]
    · simp [h2, List.getElem?_eq_none (not_lt.mp h2)]
  · simp [h]

/-! ## 32-bit addition and the progress measure -/

theorem addInt_ge (a b : Int) : -2147483648 ≤ addInt a b := by
  unfold addInt; omega

theorem addInt_le (a b : Int) : addInt a b ≤ 2147483647 := by
  unfold addInt; omega

theorem addInt_exact (a b : Int) (h1 : -2147483648 ≤ a + b) (h2 : a + b ≤ 2147483647) :
    addInt a b = a + b := by
  unfold addInt; omega

theorem distMeasure_set_lt (l : List Int) (i : Nat) (y : Int) (hi : i < l.length)
    (hy : -2147483648 ≤ y) (hlt : y < l.getD i 0) :
    distMeasure (l.set i y) < distMeasure l := by
  induction l generalizing i with
  | nil => simp at hi
  | cons x xs ih =>
    cases i with
    | zero =>
      simp only [List.getD_cons_zero] at hlt
      simp only [distMeasure, List.set_cons_zero, List.map_cons, List.sum_cons]
      omega
    | succ i =>
      simp only [List.getD_cons_succ] at hlt
      have := ih i (by simpa using hi) hlt
      simp only [distMeasure, List.set_cons_succ, List.map_cons, List.sum_cons] at this ⊢
      omega

/-! ## The priority queue -/

theorem pqTop_eq_none (pq : PQ) (h : pqTop pq = none) : pq = [] := by
  cases pq with
  | nil => rfl
  | cons x xs =>
    simp only [pqTop] at h
    split at h
    · simp at h
    · split_ifs at h

theorem pqTop_mem (pq : PQ) (m : Int × Nat) (h : pqTop pq = some m) : m ∈ pq := by
  induction pq generalizing m with
  | nil => simp [pqTop] at h
  | cons x xs ih =>
    simp only [pqTop] at h
    split at h
    · simp only [Option.some.injEq] at h; subst h; exact List.mem_cons_self _ _
    · rename_i y hy
      split_ifs at h
      · simp only [Option.some.injEq] at h; subst h; exact List.mem_cons_self _ _
      · simp only [Option.some.injEq] at h; subst h
        exact List.mem_cons_of_mem _ (ih y hy)

theorem pqTop_le (pq : PQ) (m : Int × Nat) (h : pqTop pq = some m) :
    ∀ e ∈ pq, m.1 ≤ e.1 := by
  induction pq generalizing m with
  | nil => simp
  | cons x xs ih =>
    simp only [pqTop] at h
    split at h
    · rename_i hn
      simp only [Option.some.injEq] at h; subst h
      have := pqTop_eq_none xs hn
      subst this
      simp
    · rename_i y hy
      have hle := ih y hy
      split_ifs at h with hc
      · simp only [Option.some.injEq] at h; subst h
        have hxy : x.1 ≤ y.1 := by
          unfold pairLe at hc
          simp only [Bool.or_eq_true, decide_eq_true_eq, Bool.and_eq_true] at hc
          rcases hc with hc | ⟨hc, _⟩ <;> omega
        intro e he
        rcases List.mem_cons.mp he with rfl | he
        · exact le_refl _
        · exact le_trans hxy (hle e he)
      · simp only [Option.some.injEq] at h
        rw [← h]
        have hxy : y.1 ≤ x.1 := by
          unfold pairLe at hc
          simp only [Bool.or_eq_true, decide_eq_true_eq, Bool.and_eq_true, not_or, not_and] at hc
          omega
        intro e he
        rcases List.mem_cons.mp he with rfl | he
        · exact hxy
        · exact hle e he

/-! ## Paths -/

theorem path_nonneg (G : Graph) (hpos : PositiveWeights G) (s v : Nat) (c : Int)
    (h : Path G s v c) : 0 ≤ c := by
  induction h with
  | nil => exact le_refl _
  | snoc _ he ih =>
    have := hpos _ _ he
    simp only at this
    omega

theorem path_lt (G : Graph) (hwf : WellFormed G) (s : Nat) (hs : s < G.length) (v : Nat)
    (c : Int) (h : Path G s v c) : v < G.length := by
  induction h with
  | nil => exact hs
  | snoc _ he _ => exact hwf _ _ he

theorem pathsFit_of_below (G : Graph) (s : Nat) (h : PathsBelowINF G s) : PathsFit G s :=
  fun u c hd e he => le_of_lt (h u c hd e he)

theorem pathsFit_of_all_paths (G : Graph) (s : Nat) (h : ∀ v c, Path G s v c → c ≤ INF) :
    PathsFit G s :=
  fun _ _ hd _ he => h _ _ (Path.snoc hd.1 he)

/-! ## Checking the hypotheses on a concrete graph -/

theorem wellFormed_of_all (G : Graph)
    (h : G.all (fun l => l.all (fun e => decide (e.1 < G.length))) = true) : WellFormed G := by
  intro u e he
  by_cases hu : u < G.length
  · rw [List.all_eq_true] at h
    have hl : adj G u ∈ G := by
      simp only [adj, List.getD_eq_getElem?_getD, List.getElem?_eq_getElem hu,
        Option.getD_some]
      exact List.getElem_mem hu
    have := h _ hl
    rw [List.all_eq_true] at this
    simpa using this e he
  · rw [adj_of_le G u (not_lt.mp hu)] at he
    simp at he

theorem positive_of_all (G : Graph)
    (h : G.all (fun l => l.all (fun e => decide (0 < e.2))) = true) : PositiveWeights G := by
  intro u e he
  by_cases hu : u < G.length
  · rw [List.all_eq_true] at h
    have hl : adj G u ∈ G := by
      simp only [adj, List.getD_eq_getElem?_getD, List.getElem?_eq_getElem hu,
        Option.getD_some]
      exact List.getElem_mem hu
    have := h _ hl
    rw [List.all_eq_true] at this
    simpa using this e he
  · rw [adj_of_le G u (not_lt.mp hu)] at he
    simp at he

theorem below_of_all (G : Graph) (hwf : WellFormed G) (s : Nat) (hs : s < G.length) (B : Int)
    (hB : ∀ u, u < G.length → Reachable G s u → ∃ c, Path G s u c ∧ c ≤ B)
    (hW : G.all (fun l => l.all (fun e => decide (B + e.2 < INF))) = true) :
    PathsBelowINF G s := by
  intro u c hd e he
  have hu := path_lt G hwf s hs u c hd.1
  obtain ⟨c', hc', hle⟩ := hB u hu ⟨c, hd.1⟩
  have h1 := hd.2 c' hc'
  rw [List.all_eq_true] at hW
  have hl : adj G u ∈ G := by
    simp only [adj, List.getD_eq_getElem?_getD, List.getElem?_eq_getElem hu, Option.getD_some]
    exact List.getElem_mem hu
  have := hW _ hl
  rw [List.all_eq_true] at this
  have := this e he
  simp only [decide_eq_true_eq] at this
  omega

theorem path3_wellFormed : WellFormed path3 := wellFormed_of_all path3 (by decide)

theorem triangle_wellFormed : WellFormed triangle := wellFormed_of_all triangle (by decide)

theorem triangle_positive : PositiveWeights triangle := positive_of_all triangle (by decide)

theorem triangle_path_one : Path triangle 0 1 1 :=
  Path.snoc (c := 0) (w := 1) (u := 0) Path.nil (by decide)

theorem triangle_path_two : Path triangle 0 2 2 :=
  Path.snoc (c := 1) (w := 1) (u := 1) triangle_path_one (by decide)

theorem triangle_below : PathsBelowINF triangle 0 := by
  refine below_of_all triangle triangle_wellFormed 0 (by decide) 2 ?_ (by decide)
  intro u hu _
  have hu3 : u < 3 := hu
  interval_cases u
  · exact ⟨0, Path.nil, by decide⟩
  · exact ⟨1, triangle_path_one, by decide⟩
  · exact ⟨2, triangle_path_two, by decide⟩

theorem sentinelEdge_paths (v : Nat) (c : Int) (h : Path sentinelEdge 0 v c) :
    (v = 0 ∧ c = 0) ∨ (v = 1 ∧ c = 2147483647) := by
  induction h with
  | nil => left; exact ⟨rfl, rfl⟩
  | @snoc u v c w hp he ih =>
    rcases ih with ⟨rfl, rfl⟩ | ⟨rfl, rfl⟩
    · right
      simp [adj, sentinelEdge] at he
      obtain ⟨rfl, rfl⟩ := he
      exact ⟨rfl, rfl⟩
    · simp [adj, sentinelEdge] at he

/-! ## Termination of `initialDijkstra` -/

theorem relaxEdge_progress (u : Nat) (acc : State × PQ) (e : Nat × Int)
    (he : e.1 < acc.1.dist.length) :
    (relaxEdge u acc e).1.dist.length = acc.1.dist.length
    ∧ (distMeasure (relaxEdge u acc e).1.dist < distMeasure acc.1.dist
        ∨ relaxEdge u acc e = acc) := by
  unfold relaxEdge
  dsimp only
  by_cases h : acc.1.d e.1 > addInt (acc.1.d u) e.2
  · simp only [h, if_true, List.length_set, true_and]
    left
    exact distMeasure_set_lt _ _ _ he (addInt_ge _ _) h
  · simp only [h, if_false, true_and]
    right; trivial

theorem foldl_relaxEdge_progress (u : Nat) (l : List (Nat × Int)) (acc : State × PQ)
    (hl : ∀ e ∈ l, e.1 < acc.1.dist.length) :
    (l.foldl (relaxEdge u) acc).1.dist.length = acc.1.dist.length
    ∧ (distMeasure (l.foldl (relaxEdge u) acc).1.dist < distMeasure acc.1.dist
        ∨ l.foldl (relaxEdge u) acc = acc) := by
  induction l generalizing acc with
  | nil => simp
  | cons e es ih =>
    simp only [List.foldl_cons]
    obtain ⟨hlen, hp⟩ := relaxEdge_progress u acc e (hl e (List.mem_cons_self _ _))
    rcases hp with h3 | h3
    · obtain ⟨hl2, hp2⟩ := ih (relaxEdge u acc e) (by
        intro x hx; rw [hlen]; exact hl x (List.mem_cons_of_mem _ hx))
      refine ⟨by rw [hl2, hlen], Or.inl ?_⟩
      rcases hp2 with h1 | h
      · exact lt_trans h1 h3
      · rw [h]; exact h3
    · rw [h3]; exact ih acc (fun x hx => hl x (List.mem_cons_of_mem _ hx))

theorem dijkstraLoop_step_terminates (G : Graph) (hwf : WellFormed G) (st : State) (pq : PQ)
    (hlen : st.dist.length = G.length)
    (hq : ∀ pq' : PQ, pq'.length < pq.length →
      ∃ fuel res, dijkstraLoop fuel G st pq' = some res)
    (hm : ∀ (st' : State) (pq' : PQ), st'.dist.length = G.length →
      distMeasure st'.dist < distMeasure st.dist →
      ∃ fuel res, dijkstraLoop fuel G st' pq' = some res) :
    ∃ fuel res, dijkstraLoop fuel G st pq = some res := by
  cases htop : pqTop pq with
  | none => exact ⟨1, st, by simp [dijkstraLoop, htop]⟩
  | some top =>
    obtain ⟨d, u⟩ := top
    have hmem := pqTop_mem pq _ htop
    have hlen2 : (pq.erase (d, u)).length < pq.length := by
      rw [List.length_erase_of_mem hmem]
      have := List.length_pos_of_mem hmem
      omega
    by_cases hskip : d > st.d u
    · obtain ⟨fuel, res, hres⟩ := hq _ hlen2
      exact ⟨fuel + 1, res, by simp [dijkstraLoop, htop, hskip, hres]⟩
    · obtain ⟨hl, hp⟩ := foldl_relaxEdge_progress u (adj G u) (st, pq.erase (d, u))
        (by intro e he; rw [hlen]; exact hwf u e he)
      rcases hp with hp | hp
      · obtain ⟨fuel, res, hres⟩ := hm _ ((adj G u).foldl (relaxEdge u) (st, pq.erase (d, u))).2
          (by rw [hl]; exact hlen) hp
        exact ⟨fuel + 1, res, by simp [dijkstraLoop, htop, hskip, hres]⟩
      · obtain ⟨fuel, res, hres⟩ := hq _ hlen2
        exact ⟨fuel + 1, res, by simp [dijkstraLoop, htop, hskip, hp, hres]⟩

theorem dijkstraLoop_terminates (G : Graph) (hwf : WellFormed G) :
    ∀ (m k : Nat) (st : State) (pq : PQ), st.dist.length = G.length →
      distMeasure st.dist = m → pq.length = k →
      ∃ fuel res, dijkstraLoop fuel G st pq = some res := by
  intro m
  induction m using Nat.strong_induction_on with
  | _ m ihm =>
    intro k
    induction k using Nat.strong_induction_on with
    | _ k ihk =>
      intro st pq hlen hm hk
      apply dijkstraLoop_step_terminates G hwf st pq hlen
      · intro pq' hlt
        exact ihk pq'.length (by omega) st pq' hlen hm rfl
      · intro st' pq' hlen' hlt
        exact ihm _ (by omega) pq'.length st' pq' hlen' rfl rfl

theorem initialDijkstra_terminates (G : Graph) (hwf : WellFormed G) (s : Nat)
    (hs : s < G.length) (st0 : State) :
    ∃ fuel st, initialDijkstra fuel G s st0 = Run.done st := by
  obtain ⟨fuel, res, hres⟩ := dijkstraLoop_terminates G hwf _ _
    { resetState G st0 with dist := (resetState G st0).dist.set s 0 } [((0 : Int), s)]
    (by simp [resetState]) rfl rfl
  exact ⟨fuel, res, by simp [initialDijkstra, hs, hres]⟩

/-! ## Loop invariant of `initialDijkstra` -/

theorem core_lower_bound (G : Graph) (hwf : WellFormed G) (hpos : PositiveWeights G)
    (s : Nat) (hs : s < G.length) (st : State) (pq : PQ) (h : DInv G s st pq)
    (x : Nat) (c : Int) (hp : Path G s x c) :
    st.d x ≤ c ∨ ∃ e ∈ pq, e.1 ≤ c := by
  induction hp with
  | nil => left; rw [h.1.srcD]
  | @snoc u v c w hp he ih =>
    have hw := hpos _ _ he
    simp only at hw
    have hu := path_lt G hwf s hs u c hp
    have hv : v < G.length := hwf _ _ he
    rcases ih with ih | ⟨e, hmem, hle⟩
    · by_cases hfin : st.d u < INF
      · rcases h.2 u hu hfin with hq | hr
        · right; exact ⟨_, hq, by simp only; omega⟩
        · left
          have := hr _ he
          simp only at this
          omega
      · left
        have := h.1.leInf v hv
        omega
    · right; exact ⟨e, hmem, by omega⟩

theorem settle (G : Graph) (hwf : WellFormed G) (hpos : PositiveWeights G)
    (s : Nat) (hs : s < G.length) (st : State) (pq : PQ) (h : DInv G s st pq)
    (d : Int) (u : Nat) (htop : pqTop pq = some (d, u)) (hns : ¬ d > st.d u) :
    u < G.length ∧ st.d u = d ∧ st.d u < INF ∧ IsDist G s u (st.d u) := by
  obtain ⟨hu, hle, hlt⟩ := h.1.queue _ (pqTop_mem pq _ htop)
  simp only at hu hle hlt
  have heq : st.d u = d := by omega
  have hfin : st.d u < INF := by omega
  refine ⟨hu, heq, hfin, h.1.sound u hu hfin, ?_⟩
  intro c hc
  rcases core_lower_bound G hwf hpos s hs st pq h u c hc with h1 | ⟨e, hmem, hle2⟩
  · exact h1
  · have := pqTop_le pq _ htop e hmem
    simp only at this
    omega

theorem relaxEdge_RInv (G : Graph) (hwf : WellFormed G) (hpos : PositiveWeights G)
    (s : Nat) (hs : s < G.length) (hfit : PathsFit G s) (u : Nat)
    (done : List (Nat × Int)) (acc : State × PQ) (e : Nat × Int) (he : e ∈ adj G u)
    (h : RInv G s u done acc) : RInv G s u (done ++ [e]) (relaxEdge u acc e) := by
  obtain ⟨st, pq⟩ := acc
  obtain ⟨v, w⟩ := e
  obtain ⟨hcore, hset, hpend, hdone⟩ := h
  simp only at hcore hset hpend hdone
  have hv : v < G.length := hwf u _ he
  have hw : 0 < w := hpos u _ he
  have hdu0 : 0 ≤ st.d u := path_nonneg G hpos s u _ hset.1
  have hsum : st.d u + w ≤ INF := hfit u _ hset _ he
  have hu : u < G.length := path_lt G hwf s hs u _ hset.1
  have hexact : addInt (st.d u) w = st.d u + w :=
    addInt_exact _ _ (by omega) (by unfold INF at hsum; omega)
  unfold relaxEdge
  simp only [hexact]
  by_cases hc : st.d v > st.d u + w
  · rw [if_pos hc]
    obtain ⟨st', hst'⟩ : ∃ st' : State, st' =
        { st with dist := st.dist.set v (st.d u + w), parent := st.parent.set v (u : Int) } :=
      ⟨_, rfl⟩
    rw [← hst']
    have hvu : v ≠ u := by
      intro heq; subst heq; omega
    have hvs : v ≠ s := by
      intro heq; subst heq; rw [hcore.srcD] at hc; omega
    have hd : ∀ x, st'.d x = if v = x then st.d u + w else st.d x := by
      intro x
      rw [hst']
      simp only [State.d, getD_set_eq, hcore.sizeD, hv, and_true]
    have hp : ∀ x, st'.p x = if v = x then (u : Int) else st.p x := by
      intro x
      rw [hst']
      simp only [State.p, getD_set_eq, hcore.sizeP, hv, and_true]
    have hdle : ∀ x, st'.d x ≤ st.d x := by
      intro x; rw [hd]; split_ifs with hx
      · subst hx; omega
      · exact le_refl _
    have hdu : st'.d u = st.d u := by rw [hd, if_neg hvu]
    have hnew : Path G s v (st.d u + w) := Path.snoc hset.1 he
    have hndlt : st.d u + w < INF := by
      have := hcore.leInf v hv; omega
    have hnotdist : ∀ x, IsDist G s x (st.d x) → v ≠ x := by
      intro x hx heq; subst heq
      have := hx.2 _ hnew; omega
    refine ⟨?_, ?_, ?_, ?_⟩
    · show Core G s st' ((st.d u + w, v) :: pq)
      constructor
      · rw [hst']; simp only [List.length_set]; exact hcore.sizeD
      · rw [hst']; simp only [List.length_set]; exact hcore.sizeP
      · intro x hx
        have := hdle x
        have := hcore.leInf x hx
        omega
      · rw [hd, if_neg hvs]; exact hcore.srcD
      · rw [hp, if_neg hvs]; exact hcore.srcP
      · intro x hx hlt
        rw [hd] at hlt ⊢
        by_cases hxv : v = x
        · rw [if_pos hxv]; rw [← hxv]; exact hnew
        · rw [if_neg hxv] at hlt ⊢; exact hcore.sound x hx hlt
      · intro e' he'
        rcases List.mem_cons.mp he' with rfl | he'
        · refine ⟨hv, ?_, hndlt⟩
          simp only [hd, if_true, le_refl]
        · obtain ⟨a, b, c⟩ := hcore.queue e' he'
          exact ⟨a, le_trans (hdle _) b, c⟩
      · intro x hx hxs
        by_cases hxv : v = x
        · subst hxv
          right
          refine ⟨by rw [hd, if_pos rfl]; exact hndlt, u, w, hu, by rw [hp, if_pos rfl], he,
            by rw [hdu, hd, if_pos rfl], by rw [hdu]; exact hset⟩
        · rcases hcore.tree x hx hxs with ⟨h1, h2⟩ | ⟨h1, u', w', hu', h2, h3, h4, h5⟩
          · left
            rw [hd, if_neg hxv, hp, if_neg hxv]; exact ⟨h1, h2⟩
          · right
            have hu'v : v ≠ u' := hnotdist u' h5
            refine ⟨by rw [hd, if_neg hxv]; exact h1, u', w', hu',
              by rw [hp, if_neg hxv]; exact h2, h3, ?_, ?_⟩
            · rw [hd x, if_neg hxv, hd u', if_neg hu'v]; exact h4
            · rw [hd u', if_neg hu'v]; exact h5
    · show IsDist G s u (st'.d u)
      rw [hdu]; exact hset
    · show ∀ a, a < G.length → a ≠ u → st'.d a < INF →
        (st'.d a, a) ∈ (st.d u + w, v) :: pq ∨ Relaxed G st' a
      intro a ha hau hlt
      by_cases hav : v = a
      · subst hav
        left
        rw [hd, if_pos rfl]; exact List.mem_cons_self _ _
      · rw [hd, if_neg hav] at hlt
        rcases hpend a ha hau hlt with hq | hr
        · left; rw [hd, if_neg hav]; exact List.mem_cons_of_mem _ hq
        · right
          intro e' he'
          have h1 := hr e' he'
          have h2 := hdle e'.1
          rw [hd a, if_neg hav]
          omega
    · show ∀ e' ∈ done ++ [(v, w)], st'.d e'.1 ≤ st'.d u + e'.2
      intro e' he'
      rcases List.mem_append.mp he' with h1 | h1
      · have := hdone e' h1
        have := hdle e'.1
        rw [hdu]; omega
      · simp only [List.mem_singleton] at h1
        subst h1
        simp only [hdu, hd, if_true, le_refl]
  · rw [if_neg hc]
    refine ⟨hcore, hset, hpend, ?_⟩
    intro e' he'
    simp only
    rcases List.mem_append.mp he' with h1 | h1
    · exact hdone e' h1
    · simp only [List.mem_singleton] at h1
      subst h1
      simp only
      omega

theorem foldl_relaxEdge_RInv (G : Graph) (hwf : WellFormed G) (hpos : PositiveWeights G)
    (s : Nat) (hs : s < G.length) (hfit : PathsFit G s) (u : Nat) (l : List (Nat × Int)) :
    ∀ (done : List (Nat × Int)) (acc : State × PQ), (∀ e ∈ l, e ∈ adj G u) →
      RInv G s u done acc → RInv G s u (done ++ l) (l.foldl (relaxEdge u) acc) := by
  induction l with
  | nil => intro done acc _ h; simpa using h
  | cons e es ih =>
    intro done acc hl h
    simp only [List.foldl_cons]
    have h1 := relaxEdge_RInv G hwf hpos s hs hfit u done acc e
      (hl e (List.mem_cons_self _ _)) h
    have h2 := ih (done ++ [e]) (relaxEdge u acc e)
      (fun x hx => hl x (List.mem_cons_of_mem _ hx)) h1
    simpa using h2

theorem core_erase (G : Graph) (s : Nat) (st : State) (pq : PQ) (x : Int × Nat)
    (h : Core G s st pq) : Core G s st (pq.erase x) :=
  { sizeD := h.sizeD, sizeP := h.sizeP, leInf := h.leInf, srcD := h.srcD, srcP := h.srcP,
    sound := h.sound, tree := h.tree,
    queue := fun e he => h.queue e (List.mem_of_mem_erase he) }

theorem step_skip (G : Graph) (s : Nat) (st : State) (pq : PQ) (h : DInv G s st pq)
    (d : Int) (u : Nat) (hskip : d > st.d u) : DInv G s st (pq.erase (d, u)) := by
  refine ⟨core_erase G s st pq _ h.1, ?_⟩
  intro a ha hfin
  rcases h.2 a ha hfin with hq | hr
  · left
    refine (List.mem_erase_of_ne ?_).mpr hq
    intro heq
    have h1 : st.d a = d := congrArg Prod.fst heq
    have h2 : a = u := congrArg Prod.snd heq
    subst h2; omega
  · right; exact hr

theorem step_relax (G : Graph) (hwf : WellFormed G) (hpos : PositiveWeights G)
    (s : Nat) (hs : s < G.length) (hfit : PathsFit G s) (st : State) (pq : PQ)
    (h : DInv G s st pq) (d : Int) (u : Nat) (htop : pqTop pq = some (d, u))
    (hns : ¬ d > st.d u) :
    DInv G s ((adj G u).foldl (relaxEdge u) (st, pq.erase (d, u))).1
      ((adj G u).foldl (relaxEdge u) (st, pq.erase (d, u))).2 := by
  obtain ⟨hu, _, _, hdist⟩ := settle G hwf hpos s hs st pq h d u htop hns
  have h0 : RInv G s u [] (st, pq.erase (d, u)) := by
    refine ⟨core_erase G s st pq _ h.1, hdist, ?_, by simp⟩
    intro a ha hau hfin
    rcases h.2 a ha hfin with hq | hr
    · left
      refine (List.mem_erase_of_ne ?_).mpr hq
      intro heq
      exact hau (congrArg Prod.snd heq)
    · right; exact hr
  have h1 := foldl_relaxEdge_RInv G hwf hpos s hs hfit u (adj G u) [] _ (fun e he => he) h0
  simp only [List.nil_append] at h1
  obtain ⟨hcore, hset, hpend, hdone⟩ := h1
  refine ⟨hcore, ?_⟩
  intro a ha hfin
  by_cases hau : a = u
  · subst hau; right; exact hdone
  · exact hpend a ha hau hfin

theorem dijkstraLoop_DInv (G : Graph) (hwf : WellFormed G) (hpos : PositiveWeights G)
    (s : Nat) (hs : s < G.length) (hfit : PathsFit G s) (fuel : Nat) :
    ∀ (st : State) (pq : PQ) (res : State), DInv G s st pq →
      dijkstraLoop fuel G st pq = some res → DInv G s res [] := by
  induction fuel with
  | zero => intro st pq res _ h; simp [dijkstraLoop] at h
  | succ fuel ih =>
    intro st pq res hst h
    simp only [dijkstraLoop] at h
    split at h
    · rename_i htop
      simp only [Option.some.injEq] at h
      rw [← h]
      have := pqTop_eq_none pq htop
      subst this
      exact hst
    · rename_i d u htop
      split_ifs at h with hskip
      · exact ih _ _ _ (step_skip G s st pq hst d u hskip) h
      · exact ih _ _ _ (step_relax G hwf hpos s hs hfit st pq hst d u htop hskip) h

theorem init_DInv (G : Graph) (s : Nat) (hs : s < G.length) (st0 : State) :
    DInv G s { resetState G st0 with dist := (resetState G st0).dist.set s 0 }
      [((0 : Int), s)] := by
  have hd : ∀ x, x < G.length →
      State.d { resetState G st0 with dist := (resetState G st0).dist.set s 0 } x
        = if s = x then 0 else INF := by
    intro x hx
    simp only [State.d, resetState, getD_set_eq, List.length_replicate, hs, and_true]
    simp only [List.getD_eq_getElem?_getD, List.getElem?_replicate, hx, if_true,
      Option.getD_some]
  have hp : ∀ x, x < G.length →
      State.p { resetState G st0 with dist := (resetState G st0).dist.set s 0 } x = -1 := by
    intro x hx
    simp only [State.p, resetState, List.getD_eq_getElem?_getD, List.getElem?_replicate, hx,
      if_true, Option.getD_some]
  refine ⟨?_, ?_⟩
  · constructor
    · simp [resetState]
    · simp [resetState]
    · intro v hv; rw [hd v hv]; split_ifs <;> simp [INF]
    · rw [hd s hs, if_pos rfl]
    · exact hp s hs
    · intro v hv hlt
      rw [hd v hv] at hlt ⊢
      by_cases hsv : s = v
      · rw [if_pos hsv]; rw [← hsv]; exact Path.nil
      · rw [if_neg hsv] at hlt; exact absurd hlt (lt_irrefl _)
    · intro e he
      simp only [List.mem_singleton] at he
      subst he
      refine ⟨hs, ?_, by simp [INF]⟩
      rw [hd s hs, if_pos rfl]
    · intro v hv hvs
      left
      exact ⟨by rw [hd v hv, if_neg (Ne.symm hvs)], hp v hv⟩
  · intro a ha hfin
    left
    rw [hd a ha] at hfin ⊢
    by_cases hsa : s = a
    · rw [if_pos hsa, hsa]; exact List.mem_singleton_self _
    · rw [if_neg hsa] at hfin; exact absurd hfin (lt_irrefl _)

theorem initialDijkstra_DInv (G : Graph) (hwf : WellFormed G) (hpos : PositiveWeights G)
    (s : Nat) (hs : s < G.length) (hfit : PathsFit G s) (fuel : Nat) (st0 st : State)
    (h : initialDijkstra fuel G s st0 = Run.done st) : DInv G s st [] := by
  unfold initialDijkstra at h
  dsimp only at h
  rw [if_pos hs] at h
  split at h
  · rename_i st2 hloop
    simp only [Run.done.injEq] at h
    rw [← h]
    exact dijkstraLoop_DInv G hwf hpos s hs hfit fuel _ _ _ (init_DInv G s hs st0) hloop
  · simp at h

theorem final_lower_bound (G : Graph) (hwf : WellFormed G) (hpos : PositiveWeights G)
    (s : Nat) (hs : s < G.length) (st : State) (h : DInv G s st [])
    (x : Nat) (c : Int) (hp : Path G s x c) : st.d x ≤ c := by
  rcases core_lower_bound G hwf hpos s hs st [] h x c hp with h1 | ⟨e, hmem, _⟩
  · exact h1
  · simp at hmem

theorem final_attained (G : Graph) (hwf : WellFormed G) (hpos : PositiveWeights G)
    (s : Nat) (hs : s < G.length) (hfit : PathsFit G s) (st : State) (h : DInv G s st [])
    (x : Nat) (c : Int) (hp : Path G s x c) : Path G s x (st.d x) := by
  induction hp with
  | nil => rw [h.1.srcD]; exact Path.nil
  | @snoc u v c w hp he ih =>
    have hw := hpos _ _ he
    simp only at hw
    have hu := path_lt G hwf s hs u c hp
    have hv : v < G.length := hwf _ _ he
    have hdist : IsDist G s u (st.d u) :=
      ⟨ih, fun c' hc' => final_lower_bound G hwf hpos s hs st h u c' hc'⟩
    have hsum := hfit u _ hdist _ he
    simp only at hsum
    by_cases hfin : st.d v < INF
    · exact h.1.sound v hv hfin
    · have hvinf : st.d v = INF := le_antisymm (h.1.leInf v hv) (not_lt.mp hfin)
      have hufin : st.d u < INF := by omega
      rcases h.2 u hu hufin with hq | hr
      · simp at hq
      · have := hr _ he
        simp only at this
        have heq : st.d v = st.d u + w := by omega
        rw [heq]
        exact Path.snoc ih he

theorem final_finite (G : Graph) (hwf : WellFormed G) (hpos : PositiveWeights G)
    (s : Nat) (hs : s < G.length) (hfit : PathsBelowINF G s) (st : State)
    (h : DInv G s st []) (x : Nat) (c : Int) (hp : Path G s x c) : st.d x < INF := by
  induction hp with
  | nil => rw [h.1.srcD]; simp [INF]
  | @snoc u v c w hp he ih =>
    have hu := path_lt G hwf s hs u c hp
    have hdist : IsDist G s u (st.d u) :=
      ⟨h.1.sound u hu ih, fun c' hc' => final_lower_bound G hwf hpos s hs st h u c' hc'⟩
    have hsum := hfit u _ hdist _ he
    simp only at hsum
    rcases h.2 u hu ih with hq | hr
    · simp at hq
    · have := hr _ he
      simp only at this
      omega

/-! ## Correctness of the initial solve -/

/-- C2. Initial solve is correct: for a graph with in-range neighbour ids and
positive weights in which no sum of a shortest distance and an outgoing edge
weight exceeds `INT_MAX`, and a source `s` in range, `initialDijkstra(G, s)`
returns, and in the state it returns every vertex reachable from `s` has
`dist[v]` equal to the minimum total weight over all paths from `s` to `v`, and
every vertex not reachable from `s` has `dist[v] = INF`. -/
theorem initialDijkstra_shortest (G : Graph) (s : Nat) (st0 : State)
    (hwf : WellFormed G) (hpos : PositiveWeights G) (hs : s < G.length)
    (hfit : PathsFit G s) :
    (∃ fuel st, initialDijkstra fuel G s st0 = Run.done st)
    ∧ ∀ fuel st, initialDijkstra fuel G s st0 = Run.done st →
        ∀ v, v < G.length →
          (Reachable G s v → IsDist G s v (st.d v))
          ∧ (¬ Reachable G s v → st.d v = INF) := by
  refine ⟨initialDijkstra_terminates G hwf s hs st0, ?_⟩
  intro fuel st hrun v hv
  have hinv := initialDijkstra_DInv G hwf hpos s hs hfit fuel st0 st hrun
  constructor
  · rintro ⟨c, hc⟩
    exact ⟨final_attained G hwf hpos s hs hfit st hinv v c hc,
      fun c' hc' => final_lower_bound G hwf hpos s hs st hinv v c' hc'⟩
  · intro hnr
    by_contra hne
    have hfin : st.d v < INF := lt_of_le_of_ne (hinv.1.leInf v hv) hne
    exact hnr ⟨_, hinv.1.sound v hv hfin⟩

/-- Instance of `initialDijkstra_shortest`: vertex 2 of the triangle, at distance 2. -/
theorem initialDijkstra_shortest_witness :
    WellFormed triangle ∧ PositiveWeights triangle ∧ 0 < triangle.length
    ∧ PathsFit triangle 0 ∧ IsDist triangle 0 2 2 :=
  ⟨triangle_wellFormed, triangle_positive, by decide,
    pathsFit_of_below triangle 0 triangle_below,
    (((initialDijkstra_shortest triangle 0 emptyState triangle_wellFormed triangle_positive
      (by decide) (pathsFit_of_below triangle 0 triangle_below)).2 8
      ⟨[0, 1, 2], [-1, 0, 1], []⟩ (by decide)) 2 (by decide)).1 ⟨2, triangle_path_two⟩⟩

/-- C3 (as the code behaves). For a graph with in-range neighbour ids and positive
weights in which every sum of a shortest distance and an outgoing edge weight
stays below the sentinel `INF`, and a source `s` in range, `initialDijkstra(G, s)`
returns a state with the path-tree invariant: `dist[s] = 0`, `parent[s] = -1`,
and for every other vertex `v`, `dist[v] = INF` exactly when `parent[v] = -1`
exactly when `v` is unreachable from `s`; when `v` is reachable the graph holds
an edge from `parent[v]` to `v` of some weight `w` with
`dist[v] = dist[parent[v]] + w`. -/
theorem initialDijkstra_tree (G : Graph) (s : Nat) (st0 : State)
    (hwf : WellFormed G) (hpos : PositiveWeights G) (hs : s < G.length)
    (hfit : PathsBelowINF G s) :
    (∃ fuel st, initialDijkstra fuel G s st0 = Run.done st)
    ∧ ∀ fuel st, initialDijkstra fuel G s st0 = Run.done st →
        st.d s = 0 ∧ st.p s = -1
        ∧ ∀ v, v < G.length → v ≠ s →
          (st.d v = INF ↔ st.p v = -1)
          ∧ (st.p v = -1 ↔ ¬ Reachable G s v)
          ∧ (Reachable G s v → ∃ (u : Nat) (w : Int), u < G.length ∧ st.p v = (u : Int)
              ∧ (v, w) ∈ adj G u ∧ st.d v = st.d u + w) := by
  refine ⟨initialDijkstra_terminates G hwf s hs st0, ?_⟩
  intro fuel st hrun
  have hinv := initialDijkstra_DInv G hwf hpos s hs (pathsFit_of_below G s hfit) fuel st0 st hrun
  refine ⟨hinv.1.srcD, hinv.1.srcP, ?_⟩
  intro v hv hvs
  rcases hinv.1.tree v hv hvs with ⟨h1, h2⟩ | ⟨h1, u, w, hu, h2, h3, h4, _⟩
  · have hnr : ¬ Reachable G s v := by
      rintro ⟨c, hc⟩
      have := final_finite G hwf hpos s hs hfit st hinv v c hc
      omega
    exact ⟨⟨fun _ => h2, fun _ => h1⟩, ⟨fun _ => hnr, fun _ => h2⟩, fun hr => absurd hr hnr⟩
  · have hr : Reachable G s v := ⟨_, hinv.1.sound v hv h1⟩
    have hne : st.d v ≠ INF := ne_of_lt h1
    have hpne : st.p v ≠ -1 := by omega
    exact ⟨⟨fun h => absurd h hne, fun h => absurd h hpne⟩,
      ⟨fun h => absurd h hpne, fun h => absurd hr h⟩, fun _ => ⟨u, w, hu, h2, h3, h4⟩⟩

/-- Instance of `initialDijkstra_tree`: vertex 2 of the triangle. -/
theorem initialDijkstra_tree_witness :
    WellFormed triangle ∧ PositiveWeights triangle ∧ 0 < triangle.length
    ∧ PathsBelowINF triangle 0
    ∧ (State.p ⟨[0, 1, 2], [-1, 0, 1], []⟩ 2 = -1 ↔ ¬ Reachable triangle 0 2) :=
  ⟨triangle_wellFormed, triangle_positive, by decide, triangle_below,
    ((((initialDijkstra_tree triangle 0 emptyState triangle_wellFormed triangle_positive
      (by decide) triangle_below).2 8 ⟨[0, 1, 2], [-1, 0, 1], []⟩ (by decide)).2.2
      2 (by decide) (by decide)).2).1⟩

/-- C3 fails as stated: with the single edge 0 -> 1 of weight `INT_MAX` no addition
overflows (every path weight is at most `INT_MAX`), vertex 1 is reachable from
the source 0, and yet `initialDijkstra` leaves `dist[1] = INF`, `parent[1] = -1`. -/
theorem initialDijkstra_sentinel_collision :
    WellFormed sentinelEdge ∧ PositiveWeights sentinelEdge ∧ 0 < sentinelEdge.length
    ∧ PathsFit sentinelEdge 0
    ∧ initialDijkstra 3 sentinelEdge 0 emptyState = Run.done ⟨[0, INF], [-1, -1], []⟩
    ∧ Reachable sentinelEdge 0 1
    ∧ State.d ⟨[0, INF], [-1, -1], []⟩ 1 = INF
    ∧ State.p ⟨[0, INF], [-1, -1], []⟩ 1 = -1 := by
  refine ⟨wellFormed_of_all _ (by decide), positive_of_all _ (by decide), by decide, ?_,
    by decide, ⟨2147483647, Path.snoc (c := 0) (w := 2147483647) (u := 0) Path.nil (by decide)⟩,
    by decide, by decide⟩
  apply pathsFit_of_all_paths
  intro v c h
  rcases sentinelEdge_paths v c h with ⟨_, rfl⟩ | ⟨_, rfl⟩ <;> decide

/-! ## Source validation -/

/-- C8 (as the code behaves). `initialDijkstra` makes no range check: whatever the
source is, `dist` and `parent` are first overwritten with `G.size()` copies of
`INF` and `-1`; for a source that is not below `G.size()` the subscript
`dist[source]` that follows is out of range, with the two vectors already
overwritten. -/
theorem initialDijkstra_source_out_of_range (fuel : Nat) (G : Graph) (source : Nat)
    (st : State) (h : ¬ source < G.length) :
    initialDijkstra fuel G source st
      = Run.outOfRange ⟨List.replicate G.length INF, List.replicate G.length (-1),
          st.affected⟩ := by
  unfold initialDijkstra resetState
  simp [h]

/-- Instance of `initialDijkstra_source_out_of_range`: one vertex, source 1. -/
theorem initialDijkstra_source_out_of_range_witness :
    ¬ (1 < ([[]] : Graph).length)
    ∧ initialDijkstra 5 [[]] 1 ⟨[7], [0], []⟩
        = Run.outOfRange ⟨List.replicate ([[]] : Graph).length INF,
            List.replicate ([[]] : Graph).length (-1), []⟩ :=
  ⟨by decide, initialDijkstra_source_out_of_range 5 [[]] 1 ⟨[7], [0], []⟩ (by decide)⟩

/-- C8 fails as stated: with one vertex and source 1 the vectors `dist = [7]`,
`parent = [0]` have been overwritten when the out-of-range subscript is reached. -/
theorem initialDijkstra_mutates_before_subscript :
    initialDijkstra 5 [[]] 1 ⟨[7], [0], []⟩ = Run.outOfRange ⟨[INF], [-1], []⟩
    ∧ (⟨[INF], [-1], []⟩ : State) ≠ ⟨[7], [0], []⟩ := by
  decide

/-! ## Deletion in the graph store -/

theorem removeNbr_idem (l : List (Nat × Int)) (v : Nat) :
    removeNbr (removeNbr l v) v = removeNbr l v := by
  unfold removeNbr
  rw [List.filter_filter]; simp

theorem removeNbr_absent (l : List (Nat × Int)) (v : Nat) (h : ∀ e ∈ l, e.1 ≠ v) :
    removeNbr l v = l := by
  unfold removeNbr
  rw [List.filter_eq_self]
  intro e he
  simp [h e he]

theorem filter_ne_eq_removeNbr (l : List (Nat × Int)) (x : Nat) :
    l.filter (fun e => decide (e.1 ≠ x)) = removeNbr l x := by
  unfold removeNbr; congr 1; funext e; by_cases h : e.1 = x <;> simp [h]

theorem deleteEdge_graph (G : Graph) (st : State) (u v : Nat) :
    (deleteEdge (G, st) (u, v)).1
      = (G.set u (removeNbr (adj G u) v)).set v
          (removeNbr (adj (G.set u (removeNbr (adj G u) v)) v) u) := by
  unfold deleteEdge; dsimp only; split_ifs <;> rfl

theorem deleteEdge_state (G : Graph) (st : State) (u v : Nat) :
    (deleteEdge (G, st) (u, v)).2
      = if (st.p v = (u : Int) ∧ st.d v ≠ INF) ∨ (st.p u = (v : Int) ∧ st.d u ≠ INF) then
          ⟨st.dist.set (if st.d u > st.d v then u else v) INF,
           st.parent.set (if st.d u > st.d v then u else v) (-1),
           st.affected.set (if st.d u > st.d v then u else v) true⟩
        else st := by
  unfold deleteEdge; dsimp only; split_ifs <;> rfl

theorem deleteEdge_adj_fst (G : Graph) (st : State) (u v : Nat) :
    adj (deleteEdge (G, st) (u, v)).1 u = removeNbr (adj G u) v := by
  rw [deleteEdge_graph]
  by_cases huv : u = v
  · subst huv
    by_cases hu : u < G.length
    · simp [adj_set, hu, removeNbr_idem]
    · simp [adj_set, hu, adj_of_le G u (not_lt.mp hu), removeNbr]
  · by_cases hu : u < G.length
    · simp [adj_set, hu, huv, Ne.symm huv]
    · simp [adj_set, hu, huv, Ne.symm huv, adj_of_le G u (not_lt.mp hu), removeNbr]

theorem deleteEdge_adj_snd (G : Graph) (st : State) (u v : Nat) :
    adj (deleteEdge (G, st) (u, v)).1 v = removeNbr (adj G v) u := by
  rw [deleteEdge_graph]
  by_cases huv : u = v
  · subst huv
    by_cases hu : u < G.length
    · simp [adj_set, hu, removeNbr_idem]
    · simp [adj_set, hu, adj_of_le G u (not_lt.mp hu), removeNbr]
  · by_cases hv : v < G.length
    · simp [adj_set, hv, huv]
    · simp [adj_set, hv, huv, adj_of_le G v (not_lt.mp hv), removeNbr]

/-- C5 (as the code behaves). One deletion `(u, v)` removes every entry for `v`
from `u`'s list and every entry for `u` from `v`'s list, so no entry for the
other endpoint is left; the remaining entries keep their order (the new list is
the old one filtered), and no other adjacency list changes. -/
theorem deleteEdge_removes_all (G : Graph) (st : State) (u v : Nat) :
    adj (deleteEdge (G, st) (u, v)).1 u = (adj G u).filter (fun e => e.1 ≠ v)
    ∧ adj (deleteEdge (G, st) (u, v)).1 v = (adj G v).filter (fun e => e.1 ≠ u)
    ∧ (∀ x, x ≠ u → x ≠ v → adj (deleteEdge (G, st) (u, v)).1 x = adj G x)
    ∧ (adj (deleteEdge (G, st) (u, v)).1 u).countP (fun e => e.1 = v) = 0
    ∧ (adj (deleteEdge (G, st) (u, v)).1 v).countP (fun e => e.1 = u) = 0 := by
  refine ⟨?_, ?_, ?_, ?_, ?_⟩
  · rw [deleteEdge_adj_fst, filter_ne_eq_removeNbr]
  · rw [deleteEdge_adj_snd, filter_ne_eq_removeNbr]
  · intro x hxu hxv
    rw [deleteEdge_graph]
    simp [adj_set, Ne.symm hxu, Ne.symm hxv]
  · rw [deleteEdge_adj_fst]; unfold removeNbr
    rw [List.countP_filter]; simp [List.countP_eq_zero]
  · rw [deleteEdge_adj_snd]; unfold removeNbr
    rw [List.countP_filter]; simp [List.countP_eq_zero]

/-- C5 fails as stated: vertex 0 holds two entries for neighbour 1, and after the
single deletion `(0, 1)` it holds none rather than one. -/
theorem deleteEdge_not_first_only :
    (adj parallelGraph 0).countP (fun e => e.1 = 1) = 2
    ∧ (adj (deleteEdge (parallelGraph, ⟨[0, 1, 7], [-1, 0, 0], [false, false, false]⟩)
          (0, 1)).1 0).countP (fun e => e.1 = 1) ≠ 2 - 1 := by
  decide

/-! ## Deletion of a tree edge -/

/-- The cases in which the deletion step invalidates the child of a tree edge.
For a deletion `(u, v)` with both endpoints in range: if `parent[v] = u`,
`dist[v]` is finite and `dist[u] <= dist[v]`, then `v` gets `dist = INF`,
`parent = -1`, `affected = true` and no other vertex changes; if `parent[u] = v`,
`dist[u]` is finite and `dist[v] < dist[u]`, the same holds with `u`
invalidated; if neither tree-edge condition holds, `dist`, `parent` and
`affected` are unchanged. -/
theorem deleteEdge_invalidates_larger (G : Graph) (st : State) (u v n : Nat)
    (hst : st.Sized n) (hu : u < n) (hv : v < n) :
    (st.p v = (u : Int) ∧ st.d v ≠ INF ∧ st.d u ≤ st.d v →
        (deleteEdge (G, st) (u, v)).2.d v = INF
        ∧ (deleteEdge (G, st) (u, v)).2.p v = -1
        ∧ (deleteEdge (G, st) (u, v)).2.a v = true
        ∧ ∀ x, x ≠ v → (deleteEdge (G, st) (u, v)).2.d x = st.d x
            ∧ (deleteEdge (G, st) (u, v)).2.p x = st.p x
            ∧ (deleteEdge (G, st) (u, v)).2.a x = st.a x)
    ∧ (st.p u = (v : Int) ∧ st.d u ≠ INF ∧ st.d v < st.d u →
        (deleteEdge (G, st) (u, v)).2.d u = INF
        ∧ (deleteEdge (G, st) (u, v)).2.p u = -1
        ∧ (deleteEdge (G, st) (u, v)).2.a u = true
        ∧ ∀ x, x ≠ u → (deleteEdge (G, st) (u, v)).2.d x = st.d x
            ∧ (deleteEdge (G, st) (u, v)).2.p x = st.p x
            ∧ (deleteEdge (G, st) (u, v)).2.a x = st.a x)
    ∧ (¬ ((st.p v = (u : Int) ∧ st.d v ≠ INF) ∨ (st.p u = (v : Int) ∧ st.d u ≠ INF)) →
        (deleteEdge (G, st) (u, v)).2 = st) := by
  obtain ⟨h1, h2, h3⟩ := hst
  rw [deleteEdge_state]
  refine ⟨?_, ?_, ?_⟩
  · rintro ⟨hp, hd, hle⟩
    have hx : (if st.d u > st.d v then u else v) = v := by
      rw [if_neg (not_lt.mpr hle)]
    rw [if_pos (Or.inl ⟨hp, hd⟩), hx]
    refine ⟨?_, ?_, ?_, ?_⟩
    · rw [d_set]; simp [h1, hv]
    · rw [p_set]; simp [h2, hv]
    · rw [a_set]; simp [h3, hv]
    · intro x hxv
      refine ⟨?_, ?_, ?_⟩
      · rw [d_set]; simp [Ne.symm hxv]
      · rw [p_set]; simp [Ne.symm hxv]
      · rw [a_set]; simp [Ne.symm hxv]
  · rintro ⟨hp, hd, hlt⟩
    have hx : (if st.d u > st.d v then u else v) = u := by
      rw [if_pos hlt]
    rw [if_pos (Or.inr ⟨hp, hd⟩), hx]
    refine ⟨?_, ?_, ?_, ?_⟩
    · rw [d_set]; simp [h1, hu]
    · rw [p_set]; simp [h2, hu]
    · rw [a_set]; simp [h3, hu]
    · intro x hxu
      refine ⟨?_, ?_, ?_⟩
      · rw [d_set]; simp [Ne.symm hxu]
      · rw [p_set]; simp [Ne.symm hxu]
      · rw [a_set]; simp [Ne.symm hxu]
  · intro hn
    rw [if_neg hn]

/-- Instance of `deleteEdge_invalidates_larger`: deleting the tree edge `(1, 2)` of
the path 0-1-2 in its converged state. -/
theorem deleteEdge_invalidates_larger_witness :
    (State.mk [0, 1, 2] [-1, 0, 1] [false, false, false]).Sized 3 ∧ 1 < 3 ∧ 2 < 3
    ∧ (deleteEdge (path3, ⟨[0, 1, 2], [-1, 0, 1], [false, false, false]⟩) (1, 2)).2.d 2 = INF :=
  ⟨⟨rfl, rfl, rfl⟩, by decide, by decide,
    ((deleteEdge_invalidates_larger path3 ⟨[0, 1, 2], [-1, 0, 1], [false, false, false]⟩ 1 2 3 ⟨rfl, rfl, rfl⟩
      (by decide) (by decide)).1 (by decide)).1⟩

/-- C9 at a failing input. On the path 0-1-2 solved from source 0, the batch of
deletions `[(0, 1), (1, 2)]` first sets `dist[1] = INF`; at the second deletion
the tree-edge test holds (`parent[2] = 1`, `dist[2] = 2` finite), but the endpoint
chosen by `dist[u] > dist[v] ? u : v` is the parent 1, already at `INF`;
vertex 2 is not invalidated and not marked affected, and `updateDijkstra` ends
with `dist[2] = 2`, `parent[2] = 1` although vertex 2 has no edge left. -/
theorem deleteEdge_leaves_child_stale :
    initialDijkstra 8 path3 0 emptyState = Run.done ⟨[0, 1, 2], [-1, 0, 1], []⟩
    ∧ (deleteEdge (path3, ⟨[0, 1, 2], [-1, 0, 1], [false, false, false]⟩) (0, 1)).2
      = ⟨[0, INF, 2], [-1, -1, 1], [false, true, false]⟩
    ∧ State.p ⟨[0, INF, 2], [-1, -1, 1], [false, true, false]⟩ 2 = 1
    ∧ State.d ⟨[0, INF, 2], [-1, -1, 1], [false, true, false]⟩ 2 ≠ INF
    ∧ (deleteEdge ([[], [(2, 1)], [(1, 1)]], ⟨[0, INF, 2], [-1, -1, 1], [false, true, false]⟩)
        (1, 2)).2.d 2 ≠ INF
    ∧ (deleteEdge ([[], [(2, 1)], [(1, 1)]], ⟨[0, INF, 2], [-1, -1, 1], [false, true, false]⟩)
        (1, 2)).2
      = ⟨[0, INF, 2], [-1, -1, 1], [false, true, false]⟩
    ∧ updateDijkstra 2 path3 [(0, 1), (1, 2)] [] ⟨[0, 1, 2], [-1, 0, 1], []⟩
      = Run.done ([[], [], []], ⟨[0, INF, 2], [-1, -1, 1], [false, false, false]⟩) := by
  decide

/-! ## Deleting an edge that is not stored -/

theorem relaxEdge_parentEdges (G : Graph) (u : Nat) (acc : State × PQ) (e : Nat × Int)
    (he : e ∈ adj G u) (h : ParentEdges G acc.1) : ParentEdges G (relaxEdge u acc e).1 := by
  unfold relaxEdge
  dsimp only
  split_ifs with hc
  · intro v hv
    simp only [State.p, getD_set_eq]
    split_ifs with hx
    · right
      exact ⟨u, e.2, rfl, by rw [← hx.1]; exact he⟩
    · exact h v hv
  · exact h

theorem foldl_relaxEdge_parentEdges (G : Graph) (u : Nat) (l : List (Nat × Int))
    (acc : State × PQ) (hl : ∀ e ∈ l, e ∈ adj G u) (h : ParentEdges G acc.1) :
    ParentEdges G (l.foldl (relaxEdge u) acc).1 := by
  induction l generalizing acc with
  | nil => exact h
  | cons e es ih =>
    simp only [List.foldl_cons]
    exact ih _ (fun x hx => hl x (List.mem_cons_of_mem _ hx))
      (relaxEdge_parentEdges G u acc e (hl e (List.mem_cons_self _ _)) h)

theorem dijkstraLoop_parentEdges (G : Graph) (fuel : Nat) :
    ∀ (st : State) (pq : PQ) (res : State), ParentEdges G st →
      dijkstraLoop fuel G st pq = some res → ParentEdges G res := by
  induction fuel with
  | zero => intro st pq res _ h; simp [dijkstraLoop] at h
  | succ fuel ih =>
    intro st pq res hst h
    simp only [dijkstraLoop] at h
    split at h
    · simp only [Option.some.injEq] at h; rw [← h]; exact hst
    · rename_i d u _
      split_ifs at h
      · exact ih _ _ _ hst h
      · exact ih _ _ _ (foldl_relaxEdge_parentEdges G u _ _ (fun e he => he) hst) h

theorem initialDijkstra_parentEdges (G : Graph) (fuel s : Nat) (st0 st1 : State)
    (h : initialDijkstra fuel G s st0 = Run.done st1) : ParentEdges G st1 := by
  unfold initialDijkstra at h
  dsimp only at h
  split_ifs at h with hs
  split at h
  · rename_i st2 hloop
    simp only [Run.done.injEq] at h
    rw [← h]
    refine dijkstraLoop_parentEdges G fuel _ _ _ ?_ hloop
    intro v hv
    left
    simp [State.p, resetState, List.getD_eq_getElem?_getD, List.getElem?_replicate, hv]
  · simp at h

theorem relaxRound_unaffected (G : Graph) (order : List Nat) (st : State)
    (h : ∀ u, st.a u = false) : relaxRound G order st = (st, false) := by
  unfold relaxRound
  induction order with
  | nil => rfl
  | cons u us ih =>
    simp only [List.foldl_cons]
    have : relaxVertex G (st, false) u = (st, false) := by
      unfold relaxVertex; simp [h u]
    rw [this]; exact ih

/-- C6. Deleting a nonexistent edge is a silent no-op: for a graph with in-range
neighbour ids, an in-range source `s` and an in-range pair `(u, v)` such that `v`
does not occur in `u`'s list nor `u` in `v`'s list, `initialDijkstra(G, s)`
produces a state, and on any state it produces `updateDijkstra` with deletions
`[(u, v)]` and no insertions returns normally after its first round with the
graph, `dist` and `parent` unchanged (and `affected` all false). -/
theorem delete_absent_edge_noop (G : Graph) (s u v : Nat) (st0 : State)
    (hwf : WellFormed G) (hs : s < G.length) (hu : u < G.length) (hv : v < G.length)
    (huv : ∀ e ∈ adj G u, e.1 ≠ v) (hvu : ∀ e ∈ adj G v, e.1 ≠ u) :
    (∃ fuel st1, initialDijkstra fuel G s st0 = Run.done st1)
    ∧ ∀ fuel st1, initialDijkstra fuel G s st0 = Run.done st1 →
        ∀ rounds, 0 < rounds →
          updateDijkstra rounds G [(u, v)] [] st1
            = Run.done (G, { st1 with affected := List.replicate G.length false }) := by
  refine ⟨initialDijkstra_terminates G hwf s hs st0, ?_⟩
  intro fuel st1 hinit rounds hr
  have hpe := initialDijkstra_parentEdges G fuel s st0 st1 hinit
  have hG : (deleteEdge (G, { st1 with affected := List.replicate G.length false }) (u, v)).1
      = G := by
    rw [deleteEdge_graph, removeNbr_absent _ _ huv, set_adj_self, removeNbr_absent _ _ hvu,
      set_adj_self]
  have hS : (deleteEdge (G, { st1 with affected := List.replicate G.length false }) (u, v)).2
      = { st1 with affected := List.replicate G.length false } := by
    rw [deleteEdge_state, if_neg]
    rintro (⟨hp, _⟩ | ⟨hp, _⟩)
    · rcases hpe v hv with h1 | ⟨u', w, h1, h2⟩
      · have : State.p st1 v = (u : Int) := hp
        omega
      · have : State.p st1 v = (u : Int) := hp
        have huu : u' = u := by omega
        subst huu
        exact huv (v, w) h2 rfl
    · rcases hpe u hu with h1 | ⟨v', w, h1, h2⟩
      · have : State.p st1 u = (v : Int) := hp
        omega
      · have : State.p st1 u = (v : Int) := hp
        have hvv : v' = v := by omega
        subst hvv
        exact hvu (u, w) h2 rfl
  have hA : applyChanges G [(u, v)] [] st1
      = (G, { st1 with affected := List.replicate G.length false }) := by
    unfold applyChanges
    simp only [List.foldl_cons, List.foldl_nil]
    exact Prod.ext hG hS
  obtain ⟨k, rfl⟩ : ∃ k, rounds = k + 1 := ⟨rounds - 1, by omega⟩
  unfold updateDijkstra updateDijkstraSched
  rw [hA, List.replicate_succ]
  simp only [relaxLoopSched]
  rw [relaxRound_unaffected]
  · simp
  · intro x
    simp [State.a, List.getD_eq_getElem?_getD, List.getElem?_replicate]
    split_ifs <;> simp

/-- Instance of `delete_absent_edge_noop`: the pair `(0, 2)` on the path 0-1-2. -/
theorem delete_absent_edge_noop_witness :
    WellFormed path3 ∧ 0 < path3.length ∧ 0 < path3.length ∧ 2 < path3.length
    ∧ (∀ e ∈ adj path3 0, e.1 ≠ 2) ∧ (∀ e ∈ adj path3 2, e.1 ≠ 0)
    ∧ initialDijkstra 8 path3 0 emptyState = Run.done ⟨[0, 1, 2], [-1, 0, 1], []⟩
    ∧ updateDijkstra 1 path3 [(0, 2)] [] ⟨[0, 1, 2], [-1, 0, 1], []⟩
      = Run.done (path3, ⟨[0, 1, 2], [-1, 0, 1], List.replicate path3.length false⟩) :=
  ⟨path3_wellFormed, by decide, by decide, by decide, by decide, by decide, by decide,
    (delete_absent_edge_noop path3 0 0 2 emptyState path3_wellFormed
      (by decide) (by decide) (by decide) (by decide) (by decide)).2 8
      ⟨[0, 1, 2], [-1, 0, 1], []⟩ (by decide) 1 (by decide)⟩

/-! ## Termination of the relaxation loop -/

theorem pullEdge_progress (u : Nat) (acc : State × Bool) (e : Nat × Int)
    (hu : u < acc.1.dist.length) :
    (pullEdge u acc e).1.dist.length = acc.1.dist.length
    ∧ ((distMeasure (pullEdge u acc e).1.dist < distMeasure acc.1.dist
          ∧ (pullEdge u acc e).2 = true)
        ∨ pullEdge u acc e = acc) := by
  unfold pullEdge
  dsimp only
  by_cases h : acc.1.d u > addInt (acc.1.d e.1) e.2
  · simp only [h, if_true, List.length_set, true_and]
    left
    exact ⟨distMeasure_set_lt _ _ _ hu (addInt_ge _ _) h, trivial⟩
  · simp only [h, if_false, true_and]
    right; trivial

theorem foldl_pullEdge_progress (u : Nat) (l : List (Nat × Int)) (acc : State × Bool)
    (hu : u < acc.1.dist.length) :
    (l.foldl (pullEdge u) acc).1.dist.length = acc.1.dist.length
    ∧ ((distMeasure (l.foldl (pullEdge u) acc).1.dist < distMeasure acc.1.dist
          ∧ (l.foldl (pullEdge u) acc).2 = true)
        ∨ l.foldl (pullEdge u) acc = acc) := by
  induction l generalizing acc with
  | nil => simp
  | cons e es ih =>
    simp only [List.foldl_cons]
    obtain ⟨hl, hp⟩ := pullEdge_progress u acc e hu
    rcases hp with ⟨h3, _⟩ | h3
    · obtain ⟨hl2, hp2⟩ := ih (pullEdge u acc e) (by rw [hl]; exact hu)
      refine ⟨by rw [hl2, hl], Or.inl ?_⟩
      rcases hp2 with ⟨h1, h2⟩ | h
      · exact ⟨lt_trans h1 h3, h2⟩
      · rw [h]; exact ⟨h3, by assumption⟩
    · rw [h3]; exact ih acc hu

theorem relaxVertex_progress (G : Graph) (acc : State × Bool) (u : Nat)
    (hu : u < acc.1.dist.length) :
    (relaxVertex G acc u).1.dist.length = acc.1.dist.length
    ∧ ((distMeasure (relaxVertex G acc u).1.dist < distMeasure acc.1.dist
          ∧ (relaxVertex G acc u).2 = true)
        ∨ (distMeasure (relaxVertex G acc u).1.dist = distMeasure acc.1.dist
          ∧ (relaxVertex G acc u).2 = acc.2)) := by
  unfold relaxVertex
  by_cases h : acc.1.a u = true
  · simp only [h, if_true]
    obtain ⟨hl, hp⟩ := foldl_pullEdge_progress u (adj G u)
      ({ acc.1 with affected := acc.1.affected.set u false }, acc.2) hu
    refine ⟨hl, ?_⟩
    rcases hp with hp | hp
    · left; exact hp
    · right; rw [hp]; exact ⟨rfl, rfl⟩
  · simp only [h]
    exact ⟨rfl, Or.inr ⟨rfl, rfl⟩⟩

theorem foldl_relaxVertex_progress (G : Graph) (order : List Nat) (acc : State × Bool)
    (ho : ∀ u ∈ order, u < acc.1.dist.length) :
    (order.foldl (relaxVertex G) acc).1.dist.length = acc.1.dist.length
    ∧ distMeasure (order.foldl (relaxVertex G) acc).1.dist ≤ distMeasure acc.1.dist
    ∧ ((order.foldl (relaxVertex G) acc).2 = true →
        acc.2 = true
        ∨ distMeasure (order.foldl (relaxVertex G) acc).1.dist < distMeasure acc.1.dist) := by
  induction order generalizing acc with
  | nil => simp
  | cons u us ih =>
    simp only [List.foldl_cons]
    obtain ⟨hl, hp⟩ := relaxVertex_progress G acc u (ho u (List.mem_cons_self _ _))
    obtain ⟨hl2, hle, hch⟩ := ih (relaxVertex G acc u) (by
      intro x hx; rw [hl]; exact ho x (List.mem_cons_of_mem _ hx))
    refine ⟨by rw [hl2, hl], ?_, ?_⟩
    · rcases hp with ⟨h1, _⟩ | ⟨h1, _⟩ <;> omega
    · intro hc
      rcases hp with ⟨h1, _⟩ | ⟨h1, h2⟩
      · right; omega
      · rcases hch hc with h3 | h3
        · left; rw [← h2]; exact h3
        · right; omega

theorem relaxLoopSched_terminates (G : Graph) (order : List Nat) (m : Nat) :
    ∀ st : State, (∀ u ∈ order, u < st.dist.length) → distMeasure st.dist ≤ m →
      ∃ res, relaxLoopSched (List.replicate (m + 1) order) G st = some res := by
  induction m with
  | zero =>
    intro st ho hm
    simp only [List.replicate, relaxLoopSched]
    obtain ⟨_, hle, hch⟩ := foldl_relaxVertex_progress G order (st, false) ho
    by_cases hc : (relaxRound G order st).2 = true
    · rcases hch hc with h | h
      · simp at h
      · simp only at h; omega
    · simp only [hc]; exact ⟨_, rfl⟩
  | succ m ih =>
    intro st ho hm
    rw [List.replicate_succ]
    simp only [relaxLoopSched]
    obtain ⟨hl, hle, hch⟩ := foldl_relaxVertex_progress G order (st, false) ho
    by_cases hc : (relaxRound G order st).2 = true
    · simp only [hc, if_true]
      apply ih
      · intro u hu; unfold relaxRound; rw [hl]; exact ho u hu
      · rcases hch hc with h | h
        · simp at h
        · unfold relaxRound; simp only at h; omega
    · simp only [hc]; exact ⟨_, rfl⟩

theorem deleteEdge_lengths (acc : Graph × State) (e : Nat × Nat) :
    (deleteEdge acc e).1.length = acc.1.length
    ∧ (deleteEdge acc e).2.dist.length = acc.2.dist.length := by
  unfold deleteEdge; dsimp only
  split_ifs <;> simp

theorem insertEdge_lengths (acc : Graph × State) (e : Nat × Nat) :
    (insertEdge acc e).1.length = acc.1.length
    ∧ (insertEdge acc e).2.dist.length = acc.2.dist.length := by
  unfold insertEdge; dsimp only
  split_ifs <;> simp

theorem foldl_lengths (f : Graph × State → Nat × Nat → Graph × State)
    (hf : ∀ acc e, (f acc e).1.length = acc.1.length
      ∧ (f acc e).2.dist.length = acc.2.dist.length)
    (l : List (Nat × Nat)) (acc : Graph × State) :
    (l.foldl f acc).1.length = acc.1.length
    ∧ (l.foldl f acc).2.dist.length = acc.2.dist.length := by
  induction l generalizing acc with
  | nil => simp
  | cons e es ih =>
    simp only [List.foldl_cons]
    obtain ⟨h1, h2⟩ := ih (f acc e)
    obtain ⟨h3, h4⟩ := hf acc e
    exact ⟨by rw [h1, h3], by rw [h2, h4]⟩

theorem applyChanges_lengths (G : Graph) (dels ins : List (Nat × Nat)) (st : State) :
    (applyChanges G dels ins st).1.length = G.length
    ∧ (applyChanges G dels ins st).2.dist.length = st.dist.length := by
  unfold applyChanges
  obtain ⟨h1, h2⟩ := foldl_lengths insertEdge insertEdge_lengths ins
    (dels.foldl deleteEdge (G, { st with affected := List.replicate G.length false }))
  obtain ⟨h3, h4⟩ := foldl_lengths deleteEdge deleteEdge_lengths dels
    (G, { st with affected := List.replicate G.length false })
  exact ⟨by rw [h1, h3], by rw [h2, h4]⟩

/-- C10. The relaxation loop of `updateDijkstra` terminates: for every graph,
every starting state whose `dist` has one entry per vertex and every batch, some
finite number of rounds reaches a round in which no vertex is updated, so that
`updateDijkstra` returns.  (Every committed update strictly lowers one `dist`
entry, which is bounded below by `INT_MIN`; `distMeasure + 1` rounds suffice.) -/
theorem relaxation_terminates (G : Graph) (delEdges insEdges : List (Nat × Nat)) (st : State)
    (hd : st.dist.length = G.length) :
    ∃ rounds r, updateDijkstra rounds G delEdges insEdges st = Run.done r := by
  obtain ⟨h1, h2⟩ := applyChanges_lengths G delEdges insEdges st
  obtain ⟨res, hres⟩ := relaxLoopSched_terminates (applyChanges G delEdges insEdges st).1
    (List.range G.length) (distMeasure (applyChanges G delEdges insEdges st).2.dist)
    (applyChanges G delEdges insEdges st).2
    (by intro u hu; rw [h2, hd]; exact List.mem_range.mp hu) (le_refl _)
  refine ⟨distMeasure (applyChanges G delEdges insEdges st).2.dist + 1,
    ((applyChanges G delEdges insEdges st).1, res), ?_⟩
  unfold updateDijkstra updateDijkstraSched
  simp only [hres]

/-- Instance of `relaxation_terminates`: the triangle scenario. -/
theorem relaxation_terminates_witness :
    (State.mk [0, 1, 2] [-1, 0, 1] []).dist.length = triangle.length
    ∧ ∃ rounds r, updateDijkstra rounds triangle [(1, 2)] [] ⟨[0, 1, 2], [-1, 0, 1], []⟩
        = Run.done r :=
  ⟨rfl, relaxation_terminates triangle [(1, 2)] [] ⟨[0, 1, 2], [-1, 0, 1], []⟩ rfl⟩

/-! ## Worked scenario -/

/-- C4. On the triangle 0-1 (1), 1-2 (1), 0-2 (5) with source 0, `initialDijkstra`
gives `dist = [0, 1, 2]` and `parent = [-1, 0, 1]`; `updateDijkstra` with the
single deletion `(1, 2)` then ends with `dist = [0, 1, 5]`, `parent[2] = 0` and
the edge 1-2 absent from both adjacency lists. -/
theorem scenario_triangle :
    initialDijkstra 8 triangle 0 emptyState = Run.done ⟨[0, 1, 2], [-1, 0, 1], []⟩
    ∧ updateDijkstra 2 triangle [(1, 2)] [] ⟨[0, 1, 2], [-1, 0, 1], []⟩
        = Run.done ([[(1, 1), (2, 5)], [(0, 1)], [(0, 5)]],
            ⟨[0, 1, 5], [-1, 0, 0], [false, false, false]⟩) := by
  decide

/-! ## Incremental update against recomputation -/

/-- C1 at a failing input. On the path 0-1-2-3 with source 0, deleting the edge
`(0, 1)` makes `updateDijkstra` end with `dist = [0, 3, 2, 3]`, while
`initialDijkstra` on the graph without that edge gives `[0, INF, INF, INF]`. -/
theorem update_differs_from_recompute :
    initialDijkstra 8 path4 0 emptyState = Run.done ⟨[0, 1, 2, 3], [-1, 0, 1, 2], []⟩
    ∧ updateDijkstra 3 path4 [(0, 1)] [] ⟨[0, 1, 2, 3], [-1, 0, 1, 2], []⟩
        = Run.done ([[], [(2, 1)], [(1, 1), (3, 1)], [(2, 1)]],
            ⟨[0, 3, 2, 3], [-1, 2, 1, 2], [false, false, false, false]⟩)
    ∧ initialDijkstra 8 [[], [(2, 1)], [(1, 1), (3, 1)], [(2, 1)]] 0 emptyState
        = Run.done ⟨[0, INF, INF, INF], [-1, -1, -1, -1], []⟩
    ∧ State.d ⟨[0, 3, 2, 3], [-1, 2, 1, 2], [false, false, false, false]⟩ 1
        ≠ State.d ⟨[0, INF, INF, INF], [-1, -1, -1, -1], []⟩ 1 := by
  decide

/-! ## Visiting orders -/

/-- C7 at a failing input. On the path 0-1-...-7 solved from source 0, the
insertions `(2, 6), (3, 7), (0, 5)` seed `affected = {5, 6, 7}`; sweeping each
round as `0, ..., 5, 6, 7` converges with `dist[7] = 3`, sweeping it as
`0, ..., 5, 7, 6` converges with `dist[7] = 4`. -/
theorem visiting_order_changes_dist :
    initialDijkstra 12 path8 0 emptyState
      = Run.done ⟨[0, 1, 2, 3, 4, 5, 6, 7], [-1, 0, 1, 2, 3, 4, 5, 6], []⟩
    ∧ (applyChanges path8 [] [(2, 6), (3, 7), (0, 5)]
        ⟨[0, 1, 2, 3, 4, 5, 6, 7], [-1, 0, 1, 2, 3, 4, 5, 6], []⟩).2
      = ⟨[0, 1, 2, 3, 4, 1, 3, 4], [-1, 0, 1, 2, 3, 0, 2, 3],
          [false, false, false, false, false, true, true, true]⟩
    ∧ relaxLoopSched [[0, 1, 2, 3, 4, 5, 6, 7], [0, 1, 2, 3, 4, 5, 6, 7]]
        (applyChanges path8 [] [(2, 6), (3, 7), (0, 5)]
          ⟨[0, 1, 2, 3, 4, 5, 6, 7], [-1, 0, 1, 2, 3, 4, 5, 6], []⟩).1
        ⟨[0, 1, 2, 3, 4, 1, 3, 4], [-1, 0, 1, 2, 3, 0, 2, 3],
          [false, false, false, false, false, true, true, true]⟩
      = some ⟨[0, 1, 2, 3, 4, 1, 2, 3], [-1, 0, 1, 2, 3, 0, 5, 6],
          [false, false, false, false, false, false, false, false]⟩
    ∧ relaxLoopSched [[0, 1, 2, 3, 4, 5, 7, 6], [0, 1, 2, 3, 4, 5, 7, 6]]
        (applyChanges path8 [] [(2, 6), (3, 7), (0, 5)]
          ⟨[0, 1, 2, 3, 4, 5, 6, 7], [-1, 0, 1, 2, 3, 4, 5, 6], []⟩).1
        ⟨[0, 1, 2, 3, 4, 1, 3, 4], [-1, 0, 1, 2, 3, 0, 2, 3],
          [false, false, false, false, false, true, true, true]⟩
      = some ⟨[0, 1, 2, 3, 4, 1, 2, 4], [-1, 0, 1, 2, 3, 0, 5, 3],
          [false, false, false, false, false, false, false, false]⟩
    ∧ State.d ⟨[0, 1, 2, 3, 4, 1, 2, 3], [-1, 0, 1, 2, 3, 0, 5, 6],
          [false, false, false, false, false, false, false, false]⟩ 7
      ≠ State.d ⟨[0, 1, 2, 3, 4, 1, 2, 4], [-1, 0, 1, 2, 3, 0, 5, 3],
          [false, false, false, false, false, false, false, false]⟩ 7 := by
  decide

/-! ## Frame of a whole update -/

theorem d_set_ne (l : List Int) (l2 : List Int) (l3 : List Bool) (i x : Nat) (y : Int)
    (h : i ≠ x) : State.d ⟨l.set i y, l2, l3⟩ x = l.getD x 0 := by
  simp only [State.d, getD_set_eq, h, false_and, if_false]

theorem p_set_ne (l1 : List Int) (l : List Int) (l3 : List Bool) (i x : Nat) (y : Int)
    (h : i ≠ x) : State.p ⟨l1, l.set i y, l3⟩ x = l.getD x 0 := by
  simp only [State.p, getD_set_eq, h, false_and, if_false]

theorem a_set_ne (l1 l2 : List Int) (l : List Bool) (i x : Nat) (y : Bool)
    (h : i ≠ x) : State.a ⟨l1, l2, l.set i y⟩ x = l.getD x false := by
  simp only [State.a, getD_set_eq, h, false_and, if_false]

theorem deleteEdge_frame (acc : Graph × State) (e : Nat × Nat) (x : Nat)
    (h1 : x ≠ e.1) (h2 : x ≠ e.2) :
    (deleteEdge acc e).2.d x = acc.2.d x ∧ (deleteEdge acc e).2.p x = acc.2.p x
    ∧ (deleteEdge acc e).2.a x = acc.2.a x := by
  obtain ⟨G, st⟩ := acc
  obtain ⟨u, v⟩ := e
  simp only at h1 h2
  rw [deleteEdge_state]
  split_ifs with hc hx
  · exact ⟨d_set_ne _ _ _ _ _ _ (Ne.symm h1), p_set_ne _ _ _ _ _ _ (Ne.symm h1),
      a_set_ne _ _ _ _ _ _ (Ne.symm h1)⟩
  · exact ⟨d_set_ne _ _ _ _ _ _ (Ne.symm h2), p_set_ne _ _ _ _ _ _ (Ne.symm h2),
      a_set_ne _ _ _ _ _ _ (Ne.symm h2)⟩
  · exact ⟨rfl, rfl, rfl⟩

theorem insertEdge_frame (acc : Graph × State) (e : Nat × Nat) (x : Nat)
    (h1 : x ≠ e.1) (h2 : x ≠ e.2) :
    (insertEdge acc e).2.d x = acc.2.d x ∧ (insertEdge acc e).2.p x = acc.2.p x
    ∧ (insertEdge acc e).2.a x = acc.2.a x := by
  obtain ⟨G, st⟩ := acc
  obtain ⟨u, v⟩ := e
  simp only at h1 h2
  unfold insertEdge
  dsimp only
  split_ifs
  · exact ⟨by rw [d_set_ne _ _ _ _ _ _ (Ne.symm h1)]; exact d_set_ne _ _ _ _ _ _ (Ne.symm h2),
      by rw [p_set_ne _ _ _ _ _ _ (Ne.symm h1)]; exact p_set_ne _ _ _ _ _ _ (Ne.symm h2),
      by rw [a_set_ne _ _ _ _ _ _ (Ne.symm h1)]; exact a_set_ne _ _ _ _ _ _ (Ne.symm h2)⟩
  · exact ⟨d_set_ne _ _ _ _ _ _ (Ne.symm h2), p_set_ne _ _ _ _ _ _ (Ne.symm h2),
      a_set_ne _ _ _ _ _ _ (Ne.symm h2)⟩
  · exact ⟨d_set_ne _ _ _ _ _ _ (Ne.symm h1), p_set_ne _ _ _ _ _ _ (Ne.symm h1),
      a_set_ne _ _ _ _ _ _ (Ne.symm h1)⟩
  · exact ⟨rfl, rfl, rfl⟩

theorem foldl_frame (f : Graph × State → Nat × Nat → Graph × State) (x : Nat)
    (hf : ∀ acc e, x ≠ e.1 → x ≠ e.2 →
      (f acc e).2.d x = acc.2.d x ∧ (f acc e).2.p x = acc.2.p x ∧ (f acc e).2.a x = acc.2.a x)
    (l : List (Nat × Nat)) (hl : ∀ e ∈ l, x ≠ e.1 ∧ x ≠ e.2) (acc : Graph × State) :
    (l.foldl f acc).2.d x = acc.2.d x ∧ (l.foldl f acc).2.p x = acc.2.p x
    ∧ (l.foldl f acc).2.a x = acc.2.a x := by
  induction l generalizing acc with
  | nil => exact ⟨rfl, rfl, rfl⟩
  | cons e es ih =>
    simp only [List.foldl_cons]
    obtain ⟨a1, a2, a3⟩ := ih (fun y hy => hl y (List.mem_cons_of_mem _ hy)) (f acc e)
    obtain ⟨b1, b2, b3⟩ := hf acc e (hl e (List.mem_cons_self _ _)).1
      (hl e (List.mem_cons_self _ _)).2
    exact ⟨a1.trans b1, a2.trans b2, a3.trans b3⟩

theorem applyChanges_frame (G : Graph) (dels ins : List (Nat × Nat)) (st : State) (x : Nat)
    (hdel : ∀ e ∈ dels, x ≠ e.1 ∧ x ≠ e.2) (hins : ∀ e ∈ ins, x ≠ e.1 ∧ x ≠ e.2) :
    (applyChanges G dels ins st).2.d x = st.d x ∧ (applyChanges G dels ins st).2.p x = st.p x
    ∧ (applyChanges G dels ins st).2.a x = false := by
  unfold applyChanges
  obtain ⟨a1, a2, a3⟩ := foldl_frame insertEdge x (fun acc e => insertEdge_frame acc e x) ins hins
    (dels.foldl deleteEdge (G, { st with affected := List.replicate G.length false }))
  obtain ⟨b1, b2, b3⟩ := foldl_frame deleteEdge x (fun acc e => deleteEdge_frame acc e x) dels hdel
    (G, { st with affected := List.replicate G.length false })
  refine ⟨a1.trans b1, a2.trans b2, a3.trans (b3.trans ?_)⟩
  simp only [State.a, List.getD_eq_getElem?_getD, List.getElem?_replicate]
  split_ifs <;> rfl

theorem pullEdge_frame (u x : Nat) (hux : u ≠ x) (acc : State × Bool) (e : Nat × Int) :
    (pullEdge u acc e).1.d x = acc.1.d x ∧ (pullEdge u acc e).1.p x = acc.1.p x
    ∧ (pullEdge u acc e).1.a x = acc.1.a x := by
  unfold pullEdge
  dsimp only
  split_ifs
  · exact ⟨d_set_ne _ _ _ _ _ _ hux, p_set_ne _ _ _ _ _ _ hux, a_set_ne _ _ _ _ _ _ hux⟩
  · exact ⟨rfl, rfl, rfl⟩

theorem foldl_pullEdge_frame (u x : Nat) (hux : u ≠ x) (l : List (Nat × Int))
    (acc : State × Bool) :
    (l.foldl (pullEdge u) acc).1.d x = acc.1.d x ∧ (l.foldl (pullEdge u) acc).1.p x = acc.1.p x
    ∧ (l.foldl (pullEdge u) acc).1.a x = acc.1.a x := by
  induction l generalizing acc with
  | nil => exact ⟨rfl, rfl, rfl⟩
  | cons e es ih =>
    simp only [List.foldl_cons]
    obtain ⟨a1, a2, a3⟩ := ih (pullEdge u acc e)
    obtain ⟨b1, b2, b3⟩ := pullEdge_frame u x hux acc e
    exact ⟨a1.trans b1, a2.trans b2, a3.trans b3⟩

theorem relaxVertex_frame (G : Graph) (x : Nat) (acc : State × Bool) (u : Nat)
    (hx : acc.1.a x = false) :
    (relaxVertex G acc u).1.d x = acc.1.d x ∧ (relaxVertex G acc u).1.p x = acc.1.p x
    ∧ (relaxVertex G acc u).1.a x = false := by
  unfold relaxVertex
  by_cases hu : acc.1.a u = true
  · have hux : u ≠ x := by
      intro h; rw [h, hx] at hu; exact Bool.noConfusion hu
    rw [if_pos hu]
    obtain ⟨a1, a2, a3⟩ := foldl_pullEdge_frame u x hux (adj G u)
      ({ acc.1 with affected := acc.1.affected.set u false }, acc.2)
    refine ⟨a1, a2, a3.trans ?_⟩
    rw [a_set_ne _ _ _ _ _ _ hux]
    exact hx
  · rw [if_neg hu]
    exact ⟨rfl, rfl, hx⟩

theorem relaxRound_frame (G : Graph) (x : Nat) (order : List Nat) (st : State)
    (hx : st.a x = false) :
    (relaxRound G order st).1.d x = st.d x ∧ (relaxRound G order st).1.p x = st.p x
    ∧ (relaxRound G order st).1.a x = false := by
  unfold relaxRound
  have key : ∀ (l : List Nat) (acc : State × Bool), acc.1.a x = false →
      (l.foldl (relaxVertex G) acc).1.d x = acc.1.d x
      ∧ (l.foldl (relaxVertex G) acc).1.p x = acc.1.p x
      ∧ (l.foldl (relaxVertex G) acc).1.a x = false := by
    intro l
    induction l with
    | nil => intro acc h; exact ⟨rfl, rfl, h⟩
    | cons u us ih =>
      intro acc h
      simp only [List.foldl_cons]
      obtain ⟨b1, b2, b3⟩ := relaxVertex_frame G x acc u h
      obtain ⟨a1, a2, a3⟩ := ih (relaxVertex G acc u) b3
      exact ⟨a1.trans b1, a2.trans b2, a3⟩
  exact key order (st, false) hx

theorem relaxLoopSched_frame (G : Graph) (x : Nat) (sched : List (List Nat)) :
    ∀ (st res : State), st.a x = false → relaxLoopSched sched G st = some res →
      res.d x = st.d x ∧ res.p x = st.p x := by
  induction sched with
  | nil => intro st res _ h; simp [relaxLoopSched] at h
  | cons order rest ih =>
    intro st res hx h
    simp only [relaxLoopSched] at h
    obtain ⟨b1, b2, b3⟩ := relaxRound_frame G x order st hx
    split_ifs at h
    · obtain ⟨a1, a2⟩ := ih _ res b3 h
      exact ⟨a1.trans b1, a2.trans b2⟩
    · simp only [Option.some.injEq] at h
      rw [← h]; exact ⟨b1, b2⟩

/-- C12. Frame of a whole update: for every graph, every starting state whose
`dist` has one entry per vertex and every batch, `updateDijkstra` returns, and a
vertex `x` that is an endpoint of no deleted and no inserted edge of the batch
has the same `dist[x]` and `parent[x]` after the call (deletion step, insertion
step and relaxation loop together) as before it; the same holds for every
choice of visiting orders in the relaxation rounds. -/
theorem update_frame (G : Graph) (delEdges insEdges : List (Nat × Nat)) (st : State) (x : Nat)
    (hd : st.dist.length = G.length)
    (hdel : ∀ e ∈ delEdges, x ≠ e.1 ∧ x ≠ e.2) (hins : ∀ e ∈ insEdges, x ≠ e.1 ∧ x ≠ e.2) :
    (∃ rounds r, updateDijkstra rounds G delEdges insEdges st = Run.done r)
    ∧ (∀ rounds r, updateDijkstra rounds G delEdges insEdges st = Run.done r →
        r.2.d x = st.d x ∧ r.2.p x = st.p x)
    ∧ ∀ sched r, updateDijkstraSched sched G delEdges insEdges st = Run.done r →
        r.2.d x = st.d x ∧ r.2.p x = st.p x := by
  have hsched : ∀ sched r, updateDijkstraSched sched G delEdges insEdges st = Run.done r →
      r.2.d x = st.d x ∧ r.2.p x = st.p x := by
    intro sched r hrun
    obtain ⟨c1, c2, c3⟩ := applyChanges_frame G delEdges insEdges st x hdel hins
    unfold updateDijkstraSched at hrun
    dsimp only at hrun
    split at hrun
    · rename_i st2 hloop
      simp only [Run.done.injEq] at hrun
      obtain ⟨a1, a2⟩ := relaxLoopSched_frame _ x sched _ st2 c3 hloop
      rw [← hrun]
      exact ⟨a1.trans c1, a2.trans c2⟩
    · simp at hrun
  refine ⟨?_, fun rounds r h => hsched _ r h, hsched⟩
  obtain ⟨_, h2⟩ := applyChanges_lengths G delEdges insEdges st
  obtain ⟨res, hres⟩ := relaxLoopSched_terminates (applyChanges G delEdges insEdges st).1
    (List.range G.length) (distMeasure (applyChanges G delEdges insEdges st).2.dist)
    (applyChanges G delEdges insEdges st).2
    (by intro u hu; rw [h2, hd]; exact List.mem_range.mp hu) (le_refl _)
  refine ⟨distMeasure (applyChanges G delEdges insEdges st).2.dist + 1,
    ((applyChanges G delEdges insEdges st).1, res), ?_⟩
  unfold updateDijkstra updateDijkstraSched
  simp only [hres]

/-- Instance of `update_frame`: vertex 3 of the path 0-1-2-3 when the edge `(0, 1)`
is deleted. -/
theorem update_frame_witness :
    (State.mk [0, 1, 2, 3] [-1, 0, 1, 2] []).dist.length = path4.length
    ∧ (∀ e ∈ [((0 : Nat), (1 : Nat))], 3 ≠ e.1 ∧ 3 ≠ e.2)
    ∧ (∀ e ∈ ([] : List (Nat × Nat)), 3 ≠ e.1 ∧ 3 ≠ e.2)
    ∧ State.d ⟨[0, 3, 2, 3], [-1, 2, 1, 2], [false, false, false, false]⟩ 3
        = State.d ⟨[0, 1, 2, 3], [-1, 0, 1, 2], []⟩ 3
    ∧ State.p ⟨[0, 3, 2, 3], [-1, 2, 1, 2], [false, false, false, false]⟩ 3
        = State.p ⟨[0, 1, 2, 3], [-1, 0, 1, 2], []⟩ 3 :=
  ⟨rfl, by decide, by decide,
    (update_frame path4 [(0, 1)] [] ⟨[0, 1, 2, 3], [-1, 0, 1, 2], []⟩ 3 rfl
      (by decide) (by decide)).2.1 3
      ([[], [(2, 1)], [(1, 1), (3, 1)], [(2, 1)]],
        ⟨[0, 3, 2, 3], [-1, 2, 1, 2], [false, false, false, false]⟩) (by decide)⟩

/-! ## Additions that read the sentinel -/

/-- C11 at failing inputs. `INF + 1` wraps to `INT_MIN`.  With edge 0-1 and vertex 2
isolated (source 0), inserting `(2, 1)` reads `dist[2] = INF`, the comparison
`dist[2] + 1 < dist[1]` succeeds and the update ends with `dist[1] = INT_MIN`,
`dist[2] = INT_MIN + 1`.  On the unit triangle (source 0), deleting `(0, 1)` and
`(0, 2)` leaves vertices 1 and 2 at `INF`; in the relaxation loop vertex 1 reads
its neighbour 2 at `INF`, the comparison `dist[1] > dist[2] + 1` succeeds and the
update ends with the same negative distances. -/
theorem inf_operand_wraps :
    addInt INF 1 = -2147483648
    ∧ initialDijkstra 8 edgeAndIsolated 0 emptyState = Run.done ⟨[0, 1, INF], [-1, 0, -1], []⟩
    ∧ updateDijkstra 4 edgeAndIsolated [] [(2, 1)] ⟨[0, 1, INF], [-1, 0, -1], []⟩
        = Run.done ([[(1, 1)], [(0, 1), (2, 1)], [(1, 1)]],
            ⟨[0, -2147483648, -2147483647], [-1, 2, 1], [false, false, false]⟩)
    ∧ initialDijkstra 8 triangleUnit 0 emptyState = Run.done ⟨[0, 1, 1], [-1, 0, 0], []⟩
    ∧ (applyChanges triangleUnit [(0, 1), (0, 2)] [] ⟨[0, 1, 1], [-1, 0, 0], []⟩).2
        = ⟨[0, INF, INF], [-1, -1, -1], [false, true, true]⟩
    ∧ updateDijkstra 4 triangleUnit [(0, 1), (0, 2)] [] ⟨[0, 1, 1], [-1, 0, 0], []⟩
        = Run.done ([[], [(2, 1)], [(1, 1)]],
            ⟨[0, -2147483648, -2147483647], [-1, 2, 1], [false, false, false]⟩)
    ∧ State.d ⟨[0, -2147483648, -2147483647], [-1, 2, 1], [false, false, false]⟩ 1 ≠ INF
    ∧ State.d ⟨[0, -2147483648, -2147483647], [-1, 2, 1], [false, false, false]⟩ 1 < 0 := by
  decide

end DynSSSP
